import Mathlib

/-!
Verification development for the `cmk` memory engine.

This file gives a shallow embedding of the engine's store layer
(`src/claude_memory_kit/store/qdrant_store.py`), the typed data model
(`src/claude_memory_kit/types.py`), and the write/read pipelines
(`src/claude_memory_kit/tools/remember.py`, `tools/recall.py`), together
with theorems settling the behavioural claims about them.

Modelling conventions:
- The Qdrant collection is a list of points; each point carries the key
  string that the source hashes with `_stable_id` (SHA-256 → 63 bits).
  The distinct key formats ("mem_…" domain ids for memories,
  "journal:…"-prefixed keys for journal records, and so on) are modelled
  as a tagged key type `PKey`, i.e. hash collisions between distinct
  keys are assumed absent, as the engine itself does.
- Payload dictionaries become a record `Payload` holding every field the
  engine ever writes; fields that a record kind never sets hold the
  neutral value ("", `none`), which is how the engine's filters treat a
  missing key (a `MatchValue` condition never matches a missing key, and
  all such comparisons here are guarded by the `type` discriminator).
- Floating point: `confidence` and scores are modelled as `ℚ`.
  The only arithmetic performed on them is multiplication by 0.5, which
  is exact in binary floating point, so `ℚ` is faithful.
- Timestamps are `ℚ` (seconds); the `%Y%m%d_%H%M%S` / `%Y-%m-%d` /
  ISO-format renderings of a timestamp are abstracted as `toString`.
- The external vector index's ANN scoring and the word tokenizer are not
  part of the repository; search results enter the model as explicit
  oracle arguments, and the theorems quantify over them.
- The store is modelled in its enabled state (`_disabled = False`); the
  `_disabled` short-circuits of the source all degenerate to no-ops.
-/

namespace CMK

/-- `types.Gate`: the eight gate kinds (five primary plus the
journal-only `checkpoint`, `digest`, `observation`). -/
inductive Gate where
  | behavioral
  | relational
  | epistemic
  | promissory
  | correction
  | checkpoint
  | digest
  | observation
deriving DecidableEq, Repr

/-- The persisted lowercase name of a gate (`Gate.value` in the source,
where `Gate` is a `str` enum). -/
def Gate.value : Gate → String
  | .behavioral => "behavioral"
  | .relational => "relational"
  | .epistemic => "epistemic"
  | .promissory => "promissory"
  | .correction => "correction"
  | .checkpoint => "checkpoint"
  | .digest => "digest"
  | .observation => "observation"

/-- Python `Gate(s)`: exact match against a member value, `ValueError`
(here `none`) otherwise. -/
def Gate.ofValue (s : String) : Option Gate :=
  if s = "behavioral" then some .behavioral
  else if s = "relational" then some .relational
  else if s = "epistemic" then some .epistemic
  else if s = "promissory" then some .promissory
  else if s = "correction" then some .correction
  else if s = "checkpoint" then some .checkpoint
  else if s = "digest" then some .digest
  else if s = "observation" then some .observation
  else none

/-- Python `s.lower()` (ASCII-relevant part).  Spelled as a character
map over the string data so that it evaluates inside the kernel
(`String.toLower` is the same map but does not reduce there). -/
def pyLower (s : String) : String :=
  String.mk (s.data.map Char.toLower)

/-- `Gate.from_str`: lowercases and parses; `None` on failure. -/
def Gate.from_str (s : String) : Option Gate :=
  Gate.ofValue (pyLower s)

/-- `types.DecayClass`. -/
inductive DecayClass where
  | never
  | slow
  | moderate
  | fast
deriving DecidableEq, Repr

/-- Persisted lowercase name of a decay class. -/
def DecayClass.value : DecayClass → String
  | .never => "never"
  | .slow => "slow"
  | .moderate => "moderate"
  | .fast => "fast"

/-- `DecayClass.from_gate`: the total gate → decay-class map. -/
def DecayClass.from_gate : Gate → DecayClass
  | .promissory => .never
  | .relational => .slow
  | .epistemic => .moderate
  | .behavioral => .fast
  | .correction => .moderate
  | .checkpoint => .fast
  | .digest => .moderate
  | .observation => .fast

/-- `types.Visibility` (`private` is a Lean keyword, so the constructor
is named `priv`; its persisted value is still "private"). -/
inductive Visibility where
  | priv
  | team
deriving DecidableEq, Repr

/-- Persisted value of a visibility. -/
def Visibility.value : Visibility → String
  | .priv => "private"
  | .team => "team"

/-- Python `Visibility(s)`: exact match, `ValueError` otherwise.  The
engine only ever passes "private" or "team"; theorems about states built
by the engine restrict to those, and the total default used below is
never exercised there. -/
def Visibility.ofString (s : String) : Option Visibility :=
  if s = "private" then some .priv
  else if s = "team" then some .team
  else none

/-- Python truthiness of a `str | None` value: `None` and "" are falsy. -/
def truthy : Option String → Bool
  | none => false
  | some s => s ≠ ""

/-- An inline graph edge: the payload dict `{"to": …, "relation": …}`. -/
structure GEdge where
  toId : String
  relation : String
deriving DecidableEq, Repr

/-- `types.Memory`. -/
structure Memory where
  id : String
  created : ℚ
  gate : Gate
  person : Option String
  project : Option String
  confidence : ℚ
  last_accessed : ℚ
  access_count : ℕ
  decay_class : DecayClass
  content : String
  pinned : Bool
  sensitivity : Option String
  sensitivity_reason : Option String
  visibility : Visibility
  team_id : Option String
  created_by : Option String
deriving DecidableEq, Repr

/-- `types.JournalEntry`. -/
structure JournalEntry where
  timestamp : ℚ
  gate : Gate
  content : String
  person : Option String
  project : Option String
deriving DecidableEq, Repr

/-- A point payload: one record for every field the engine writes.
Record kinds that never set a field keep its neutral value. -/
structure Payload where
  type : String
  memory_id : String
  content : String
  person : Option String
  project : Option String
  user_id : String
  gate : String
  confidence : ℚ
  created : ℚ
  last_accessed : ℚ
  access_count : ℕ
  decay_class : String
  pinned : Bool
  sensitivity : Option String
  sensitivity_reason : Option String
  visibility : String
  team_id : String
  created_by : String
  edges : List GEdge
  timestamp : ℚ
  date : String
deriving DecidableEq, Repr

/-- The `_stable_id` key of a point, kept as a tagged key rather than
the 63-bit hash (collisions between the distinct key formats are assumed
absent). -/
inductive PKey where
  | mem (id : String)
  | journal (user : String) (ts : ℚ) (c50 : String)
  | identity (user : String)
  | rule (user : String) (id : String)
deriving DecidableEq, Repr

/-- One stored point. -/
structure Point where
  pid : PKey
  payload : Payload
deriving DecidableEq, Repr

/-- The collection `cmk_memories`. -/
abbrev State := List Point

/-- `client.upsert`: idempotent on the point id — replace the point with
this id if present, else append. -/
def upsert (pt : Point) (st : State) : State :=
  if st.any (fun q => q.pid = pt.pid) then
    st.map (fun q => if q.pid = pt.pid then pt else q)
  else
    st ++ [pt]

/-- `client.set_payload(payload, points=[pid])`: merge the given fields
(expressed as `f`) into every point with this id. -/
def setPayloadWith (k : PKey) (f : Payload → Payload) (st : State) : State :=
  st.map (fun q => if q.pid = k then { q with payload := f q.payload } else q)

/-- `_scroll_all(conditions, limit=1)` followed by `points[0]`: the first
stored point whose payload satisfies the filter conditions. -/
def scrollFirst (cond : Payload → Bool) (st : State) : Option Point :=
  st.find? (fun pt => cond pt.payload)

/-- The filter conditions `type == "memory" ∧ memory_id == mid ∧
user_id == uid` shared by the memory CRUD operations. -/
def memCond (mid uid : String) (p : Payload) : Bool :=
  p.type = "memory" && p.memory_id = mid && p.user_id = uid

/-- `x or None` on an optional string field read back from a payload:
"" and `None` both become `None`. -/
def orNone : Option String → Option String
  | none => none
  | some s => if s = "" then none else some s

/-- `_memory_payload(memory, user_id)`.  `memory.person or ""` stores ""
for an absent person, and likewise for `project` / `team_id` /
`created_by`; `edges` starts empty. -/
def memoryPayload (m : Memory) (uid : String) : Payload where
  type := "memory"
  memory_id := m.id
  content := m.content
  person := some (m.person.getD "")
  project := some (m.project.getD "")
  user_id := uid
  gate := m.gate.value
  confidence := m.confidence
  created := m.created
  last_accessed := m.last_accessed
  access_count := m.access_count
  decay_class := m.decay_class.value
  pinned := m.pinned
  sensitivity := m.sensitivity
  sensitivity_reason := m.sensitivity_reason
  visibility := m.visibility.value
  team_id := m.team_id.getD ""
  created_by := m.created_by.getD ""
  edges := []
  timestamp := 0
  date := ""

/-- `_memory_from_payload(payload)`.  The source raises on a gate or
decay-class string outside the enum; every state built by the modelled
writers stores valid names, so the defaults (mirroring the `.get`
defaults "epistemic" / "moderate") are never exercised in the theorems.
The `visibility` default to private on a bad string is the source's own
explicit `except ValueError` branch. -/
def memory_from_payload (p : Payload) : Memory where
  id := p.memory_id
  created := p.created
  gate := (Gate.ofValue p.gate).getD .epistemic
  person := orNone p.person
  project := orNone p.project
  confidence := p.confidence
  last_accessed := p.last_accessed
  access_count := p.access_count
  decay_class :=
    (if p.decay_class = "never" then DecayClass.never
     else if p.decay_class = "slow" then DecayClass.slow
     else if p.decay_class = "moderate" then DecayClass.moderate
     else if p.decay_class = "fast" then DecayClass.fast
     else DecayClass.moderate)
  content := p.content
  pinned := p.pinned
  sensitivity := p.sensitivity
  sensitivity_reason := p.sensitivity_reason
  visibility := (Visibility.ofString p.visibility).getD .priv
  team_id := orNone (some p.team_id)
  created_by := orNone (some p.created_by)

/-- The team-override block of `insert_memory`: `model_copy(update=…)`
with one update per truthy argument. -/
def applyOverrides (m : Memory) (visibility team_id created_by : Option String) : Memory :=
  if truthy visibility || truthy team_id || truthy created_by then
    let m := if truthy visibility then
      { m with visibility := (Visibility.ofString (visibility.getD "")).getD .priv }
      else m
    let m := if truthy team_id then { m with team_id := team_id } else m
    if truthy created_by then { m with created_by := created_by } else m
  else m

/-- `insert_memory(memory, user_id, visibility, team_id, created_by)`:
apply the truthy team overrides to a copy of the memory, then upsert the
point keyed by the domain id. -/
def insert_memory (st : State) (m : Memory) (uid : String)
    (visibility team_id created_by : Option String) : State :=
  let m := applyOverrides m visibility team_id created_by
  upsert ⟨PKey.mem m.id, memoryPayload m uid⟩ st

/-- `get_memory(memory_id, user_id)`. -/
def get_memory (st : State) (mid uid : String) : Option Memory :=
  (scrollFirst (memCond mid uid) st).map (fun pt => memory_from_payload pt.payload)

/-- `touch_memory(memory_id, user_id)` at clock value `now`: look up the
point, then `set_payload {last_accessed: now, access_count: old + 1}`.
(The source's `(payload.get("access_count") or 0) + 1` equals
`access_count + 1` since the field is a natural number here.) -/
def touch_memory (st : State) (mid uid : String) (now : ℚ) : State :=
  match scrollFirst (memCond mid uid) st with
  | none => st
  | some pt =>
      setPayloadWith pt.pid
        (fun p => { p with last_accessed := now,
                           access_count := pt.payload.access_count + 1 }) st

/-- `update_confidence(memory_id, confidence, user_id)`. -/
def update_confidence (st : State) (mid : String) (conf : ℚ) (uid : String) : State :=
  match scrollFirst (memCond mid uid) st with
  | none => st
  | some pt => setPayloadWith pt.pid (fun p => { p with confidence := conf }) st

/-- `update_sensitivity(memory_id, sensitivity, reason, user_id)`. -/
def update_sensitivity (st : State) (mid lvl : String) (reason : Option String)
    (uid : String) : State :=
  match scrollFirst (memCond mid uid) st with
  | none => st
  | some pt =>
      setPayloadWith pt.pid
        (fun p => { p with sensitivity := some lvl, sensitivity_reason := reason }) st

/-- `add_edge(from_id, to_id, relation, user_id)`: read the source
point, return unchanged if the `(to, relation)` pair is already present,
else append it and write the edges array back. -/
def add_edge (st : State) (from_id to_id relation uid : String) : State :=
  match scrollFirst (memCond from_id uid) st with
  | none => st
  | some pt =>
      let edges := pt.payload.edges
      if edges.any (fun e => e.toId = to_id && e.relation = relation) then st
      else
        setPayloadWith pt.pid
          (fun p => { p with edges := edges ++ [⟨to_id, relation⟩] }) st

/-- `_journal_point_id(user_id, timestamp, content)`:
`"journal:{user}:{ts}:{content[:50]}"` as a tagged key. -/
def journalKey (uid : String) (ts : ℚ) (content : String) : PKey :=
  PKey.journal uid ts (content.take 50)

/-- The payload written by `insert_journal`. -/
def journalPayload (e : JournalEntry) (uid : String) : Payload where
  type := "journal"
  memory_id := ""
  content := e.content
  person := e.person
  project := e.project
  user_id := uid
  gate := e.gate.value
  confidence := 0
  created := 0
  last_accessed := 0
  access_count := 0
  decay_class := ""
  pinned := false
  sensitivity := none
  sensitivity_reason := none
  visibility := ""
  team_id := ""
  created_by := ""
  edges := []
  timestamp := e.timestamp
  date := toString e.timestamp

/-- `insert_journal(entry, user_id)`. -/
def insert_journal (st : State) (e : JournalEntry) (uid : String) : State :=
  upsert ⟨journalKey uid e.timestamp e.content, journalPayload e uid⟩ st

/-- `_build_memory_filter(user_id, team_id)`: `type == "memory"` plus —
when both a user and a team are given — the should-disjunction of
private-own and team-shared, else the plain user condition.  (A Qdrant
filter with both `must` and non-empty `should` matches a point when all
`must` and at least one `should` condition hold.) -/
def build_memory_filter (user_id team_id : Option String) (p : Payload) : Bool :=
  p.type = "memory" &&
    (if truthy user_id && truthy team_id then
      (p.user_id = user_id.getD "" && p.visibility = "private") ||
        (p.team_id = team_id.getD "" && p.visibility = "team")
     else if truthy user_id then p.user_id = user_id.getD ""
     else true)

/-- A row of `find_related`: the dict
`{id, content, gate, relation, depth}`. -/
structure RelEntry where
  id : String
  content : String
  gate : String
  relation : String
  depth : ℕ
deriving DecidableEq, Repr

/-- Inner loop of `find_related`: walk the edges of one frontier point,
extending visited / next frontier / results. -/
def frEdges (st : State) (uid : String) (d : ℕ) :
    List GEdge → List String × List String × List RelEntry →
      List String × List String × List RelEntry
  | [], acc => acc
  | e :: rest, (visited, nxt, results) =>
      if e.toId ∈ visited then frEdges st uid d rest (visited, nxt, results)
      else
        let visited := visited ++ [e.toId]
        let nxt := nxt ++ [e.toId]
        match scrollFirst (memCond e.toId uid) st with
        | none => frEdges st uid d rest (visited, nxt, results)
        | some tp =>
            frEdges st uid d rest
              (visited, nxt,
                results ++ [⟨e.toId, tp.payload.content, tp.payload.gate,
                             e.relation, d⟩])

/-- Middle loop of `find_related`: one hop for every frontier id. -/
def frFrontier (st : State) (uid : String) (d : ℕ) :
    List String → List String × List String × List RelEntry →
      List String × List String × List RelEntry
  | [], acc => acc
  | mid :: rest, (visited, nxt, results) =>
      match scrollFirst (memCond mid uid) st with
      | none => frFrontier st uid d rest (visited, nxt, results)
      | some pt =>
          frFrontier st uid d rest (frEdges st uid d pt.payload.edges (visited, nxt, results))

/-- Outer loop of `find_related`: `for d in range(1, depth + 1)`. -/
def frHops (st : State) (uid : String) :
    ℕ → ℕ → List String → List String → List RelEntry → List RelEntry
  | 0, _, _, _, results => results
  | fuel + 1, d, frontier, visited, results =>
      let (visited, nxt, results) := frFrontier st uid d frontier (visited, [], results)
      frHops st uid fuel (d + 1) nxt visited results

/-- `find_related(memory_id, depth, user_id)`: bounded BFS over the
inline edges, visited seeded with the start id. -/
def find_related (st : State) (memory_id : String) (depth : ℕ) (uid : String) :
    List RelEntry :=
  frHops st uid depth 1 [memory_id] [memory_id] []

/-- Key comparison used by `order_by created desc`: insert a point into
a list sorted by descending `created`. -/
def insertByCreatedDesc (pt : Point) : List Point → List Point
  | [] => [pt]
  | q :: rest =>
      if q.payload.created < pt.payload.created then pt :: q :: rest
      else q :: insertByCreatedDesc pt rest

/-- Deterministic model of a scroll with `order_by created desc`. -/
def sortByCreatedDesc : List Point → List Point
  | [] => []
  | pt :: rest => insertByCreatedDesc pt (sortByCreatedDesc rest)

/-- `find_recent_in_context(exclude_id, cutoff, person, project,
user_id)`: scroll (created desc, limit 10) over the user's memories
matching the truthy person/project conditions created at or after the
cutoff, returning the first id different from `exclude_id`.  The ISO
cutoff string round-trips to the timestamp `cutoff_ts`. -/
def find_recent_in_context (st : State) (exclude_id : String) (cutoff_ts : ℚ)
    (person project : Option String) (uid : String) : Option String :=
  let cond := fun (p : Payload) =>
    p.type = "memory" && p.user_id = uid &&
      (!truthy person || p.person = some (person.getD "")) &&
      (!truthy project || p.project = some (project.getD "")) &&
      cutoff_ts ≤ p.created
  let points := (sortByCreatedDesc (st.filter (fun pt => cond pt.payload))).take 10
  (points.find? (fun pt => pt.payload.memory_id ≠ "" && pt.payload.memory_id ≠ exclude_id)).map
    (fun pt => pt.payload.memory_id)

/-! ### The write pipeline (`tools/remember.py`) -/

/-- `f"mem_{now.strftime('%Y%m%d_%H%M%S')}_{uuid.uuid4().hex[:4]}"` with
the compact clock rendering abstracted as `toString` and the random
suffix as a parameter. -/
def memIdStr (now : ℚ) (rand4 : String) : String :=
  "mem_" ++ toString now ++ "_" ++ rand4

/-- The message returned when `gate_str` does not parse. -/
def invalidGateMsg (gate_str : String) : String :=
  "invalid gate '" ++ gate_str ++
    "'. use: behavioral, relational, epistemic, promissory, correction"

/-- The message returned on a team-visibility write without a team. -/
def teamConfigMsg : String :=
  "Cannot save team memory: no team configured. Run 'cmk team join <id>' first."

/-- Python's `f"{score:.2f}"` rendering, abstracted as `toString`. -/
def fmt2 (q : ℚ) : String := toString q

/-- Step 4 of `do_remember` (contradiction check): scan the hybrid hits
for the first `sid ≠ mem_id` with score > 0.85 whose stored content
differs from the new content, producing the advisory warning.  A `none`
oracle models the `search` call raising (caught and logged). -/
def contraLoop (st : State) (content mem_id uid : String) :
    List (String × ℚ) → String
  | [] => ""
  | (sid, score) :: rest =>
      if sid ≠ mem_id && score > (17/20 : ℚ) then
        match get_memory st sid uid with
        | some existing =>
            if existing.content ≠ content then
              "\n\nwarning: high similarity (score=" ++ fmt2 score ++
                ") with existing memory [" ++ sid ++
                "]. possible contradiction or duplicate."
            else contraLoop st content mem_id uid rest
        | none => contraLoop st content mem_id uid rest
      else contraLoop st content mem_id uid rest

/-- The contradiction-check warning for a given search outcome. -/
def contradictionWarning (st : State) (content mem_id uid : String)
    (search3 : Option (List (String × ℚ))) : String :=
  match search3 with
  | none => ""
  | some similar => contraLoop st content mem_id uid similar

/-- One hit of step 5 (correction handling): for `sid ≠ mem_id` with
score > 0.5, add the CONTRADICTS edge and halve the target's
confidence when it is found in the caller's scope. -/
def corrApply (mem_id uid : String) (st : State) (pr : String × ℚ) : State :=
  if pr.1 ≠ mem_id && pr.2 > (1/2 : ℚ) then
    let stA := add_edge st mem_id pr.1 "CONTRADICTS" uid
    match get_memory stA pr.1 uid with
    | some old => update_confidence stA pr.1 (old.confidence * (1/2 : ℚ)) uid
    | none => stA
  else st

/-- Step 5 of `do_remember`: correction handling over the limit-1 hybrid
search outcome (a `none` oracle models the call raising, caught). -/
def correctionStep (st : State) (mem_id uid : String)
    (search1 : Option (List (String × ℚ))) : State :=
  match search1 with
  | none => st
  | some similar => similar.foldl (corrApply mem_id uid) st

/-- Step 6 of `do_remember`: the FOLLOWS chain.  `chainFails` models the
`find_recent_in_context` call raising (caught); the 24 h cutoff is
`now - 86400` seconds. -/
def followsStep (st : State) (mem_id uid : String) (person project : Option String)
    (now : ℚ) (chainFails : Bool) : State :=
  if chainFails then st
  else
    match find_recent_in_context st mem_id (now - 86400) person project uid with
    | some recent_id => add_edge st mem_id recent_id "FOLLOWS" uid
    | none => st

/-- Modelled from the spec: `tools/classify.classify_single` and
`config.get_api_key` are not under src/.  Per §4.2 step 7, when a
synthesizer is configured (`apiKey` present) and classification returns
a level outside {safe, unknown}, the level and reason are stored on the
memory and appended to the warning text; a `none` outcome models a
missing key's skip or a raised (and caught) failure, which stores
nothing. -/
def classifyStep (st : State) (mem_id uid : String) (apiKey : Option String)
    (outcome : Option (String × String)) (warning : String) : State × String :=
  match apiKey, outcome with
  | some _, some (level, reason) =>
      if level ≠ "safe" && level ≠ "unknown" then
        (update_sensitivity st mem_id level (some reason) uid,
         warning ++ "\n\nSENSITIVITY: " ++ level ++ " (" ++ reason ++ ")")
      else (st, warning)
  | _, _ => (st, warning)

/-- Step 7 of `do_remember`: append the PII warning, when any. -/
def piiAppend (warning : String) (pw : Option String) : String :=
  match pw with
  | some w => warning ++ "\n\nWARNING: " ++ w
  | none => warning

/-- `do_remember(store, content, gate_str, person, project, user_id,
visibility, team_id)`.  `now` is the clock, `rand4` the random id
suffix; `search3` / `search1` are the outcomes of the two hybrid search
calls, `piiWarning` the result of the stateless `check_pii` pass
(modelled from the spec: `tools/_pii.py` is not under src/), and
`apiKey` / `classifyOutcome` drive the classification step.  Returns the
user-visible message and the resulting store state. -/
def do_remember (st : State) (content gate_str : String)
    (person project : Option String) (user_id visibility : String)
    (team_id : Option String) (now : ℚ) (rand4 : String)
    (search3 search1 : Option (List (String × ℚ))) (chainFails : Bool)
    (piiWarning : Option String) (apiKey : Option String)
    (classifyOutcome : Option (String × String)) : String × State :=
  match Gate.from_str gate_str with
  | none => (invalidGateMsg gate_str, st)
  | some gate =>
      let mem_id := memIdStr now rand4
      let memory : Memory :=
        { id := mem_id, created := now, gate := gate, person := person,
          project := project, confidence := (9/10 : ℚ), last_accessed := now,
          access_count := 1, decay_class := DecayClass.from_gate gate,
          content := content, pinned := false, sensitivity := none,
          sensitivity_reason := none, visibility := .priv, team_id := none,
          created_by := none }
      let entry : JournalEntry :=
        { timestamp := now, gate := gate, content := content,
          person := person, project := project }
      let st1 := insert_journal st entry user_id
      if visibility = "team" && !truthy team_id then (teamConfigMsg, st1)
      else
        let st2 := insert_memory st1 memory user_id
          (if visibility ≠ "private" then some visibility else none)
          (if visibility = "team" then team_id else none)
          (if visibility = "team" then some user_id else none)
        -- step 3, auto_link, is a no-op in the source
        let warning := contradictionWarning st2 content mem_id user_id search3
        let st3 := if gate = .correction then correctionStep st2 mem_id user_id search1 else st2
        let st4 :=
          if truthy person || truthy project then
            followsStep st3 mem_id user_id person project now chainFails
          else st3
        let warning := piiAppend warning piiWarning
        let (st5, warning) := classifyStep st4 mem_id user_id apiKey classifyOutcome warning
        let preview := if content.length > 80 then content.take 80 else content
        ("Remembered [" ++ gate.value ++ "]: " ++ preview ++ " (id: " ++ mem_id ++ ")"
          ++ warning, st5)

/-! ### The retrieval pipeline (`tools/recall.py`) -/

/-- A materialized recall result, carrying the namespace (`user_id`
value) under which the memory was found, so that tenant ownership of
each rendered line is expressible.  `vec` and `txt` are the hybrid and
text-fallback stages, `graph` the traversal stage. -/
inductive RItem where
  | vec (ns : String) (m : Memory) (score : ℚ)
  | txt (ns : String) (m : Memory) (score : ℚ)
  | graph (ns : String) (rel : RelEntry)
deriving DecidableEq, Repr

/-- The namespace a result was materialized from. -/
def RItem.ns : RItem → String
  | .vec ns _ _ => ns
  | .txt ns _ _ => ns
  | .graph ns _ => ns

/-- `full.person or "?"`. -/
def personOrQ : Option String → String
  | none => "?"
  | some s => if s = "" then "?" else s

/-- `_source_tag(mem)`: the `[team] ` / `[private] ` prefix in team
mode. -/
def sourceTag (team_id : Option String) (m : Memory) : String :=
  if !truthy team_id then ""
  else if m.visibility = .team then "[team] " else "[private] "

/-- The `%Y-%m-%d` rendering of a created timestamp, abstracted. -/
def fmtDate (q : ℚ) : String := toString q

/-- Render one result line. -/
def renderItem (team_id : Option String) : RItem → String
  | .vec _ m score =>
      sourceTag team_id m ++ "[" ++ m.gate.value ++ ", score=" ++ fmt2 score ++ "] ("
        ++ fmtDate m.created ++ ", " ++ personOrQ m.person ++ ") " ++ m.content
        ++ "\n  id: " ++ m.id
  | .txt _ m _ =>
      sourceTag team_id m ++ "[" ++ m.gate.value ++ ", text] ("
        ++ fmtDate m.created ++ ", " ++ personOrQ m.person ++ ") " ++ m.content
        ++ "\n  id: " ++ m.id
  | .graph _ rel =>
      "[graph: " ++ rel.relation ++ "] " ++ rel.content.take 80
        ++ " (id: " ++ rel.id ++ ")"

/-- The canonical empty-result sentinel. -/
def noMemoriesMsg : String := "No memories found matching that query."

/-- The user-facing return: the sentinel on no results, else the joined
renderings. -/
def recallMessage (team_id : Option String) (items : List RItem) : String :=
  if items = [] then noMemoriesMsg
  else
    "Found " ++ toString items.length ++ " memories:\n\n"
      ++ String.intercalate "\n\n" (items.map (renderItem team_id))

/-- `_get_memory(mem_id)`: look up under the caller's id, then under the
synthetic team namespace when a team is configured, recording which
namespace answered. -/
def getMemoryNS (st : State) (mid uid : String) (team_id : Option String) :
    Option (String × Memory) :=
  match get_memory st mid uid with
  | some m => some (uid, m)
  | none =>
      if truthy team_id then
        (get_memory st mid ("team:" ++ team_id.getD "")).map
          (fun m => ("team:" ++ team_id.getD "", m))
      else none

/-- Stage 1 loop of `do_recall`: for each hybrid hit not yet seen,
record it as seen, materialize it, and on success touch it and append
the rendering data. -/
def recallVec (uid : String) (team_id : Option String) (now : ℚ) :
    List (String × ℚ) → List String → List RItem → State →
      List String × List RItem × State
  | [], seen, items, st => (seen, items, st)
  | (mid, score) :: rest, seen, items, st =>
      if mid ∈ seen then recallVec uid team_id now rest seen items st
      else
        let seen := seen ++ [mid]
        match getMemoryNS st mid uid team_id with
        | none => recallVec uid team_id now rest seen items st
        | some (ns, m) =>
            recallVec uid team_id now rest seen (items ++ [.vec ns m score])
              (touch_memory st mid uid now)

/-- Stage 2 loop (text fallback): identical shape, tagging the items as
text hits. -/
def recallTxt (uid : String) (team_id : Option String) (now : ℚ) :
    List (String × ℚ) → List String → List RItem → State →
      List String × List RItem × State
  | [], seen, items, st => (seen, items, st)
  | (mid, score) :: rest, seen, items, st =>
      if mid ∈ seen then recallTxt uid team_id now rest seen items st
      else
        let seen := seen ++ [mid]
        match getMemoryNS st mid uid team_id with
        | none => recallTxt uid team_id now rest seen items st
        | some (ns, m) =>
            recallTxt uid team_id now rest seen (items ++ [.txt ns m score])
              (touch_memory st mid uid now)

/-- Inner loop of stage 3: append the not-yet-seen related rows. -/
def graphInner (uid : String) :
    List RelEntry → List String → List RItem → List String × List RItem
  | [], seen, items => (seen, items)
  | rel :: rest, seen, items =>
      if rel.id ∈ seen then graphInner uid rest seen items
      else graphInner uid rest (seen ++ [rel.id]) (items ++ [.graph uid rel])

/-- Outer loop of stage 3: BFS from each of the first two seen ids. -/
def graphFold (uid : String) (st : State) :
    List String → List String → List RItem → List String × List RItem
  | [], seen, items => (seen, items)
  | mid :: rest, seen, items =>
      let (seen, items) := graphInner uid (find_related st mid 2 uid) seen items
      graphFold uid st rest seen items

/-- Stage 1 of `do_recall`: the hybrid search (a `none` oracle models
the `search` call raising, caught and logged: no seen ids, no results). -/
def recallStage1 (uid : String) (team_id : Option String) (now : ℚ)
    (hybrid : Option (List (String × ℚ))) (st : State) :
    List String × List RItem × State :=
  match hybrid with
  | none => ([], [], st)
  | some hits => recallVec uid team_id now hits [] [] st

/-- Stage 2 of `do_recall`: the text fallback, run only when stage 1
produced no result lines. -/
def recallStage2 (uid : String) (team_id : Option String) (now : ℚ)
    (txt : Option (List (String × ℚ))) (r1 : List String × List RItem × State) :
    List String × List RItem × State :=
  if r1.2.1 = [] then
    match txt with
    | none => r1
    | some hits => recallTxt uid team_id now hits r1.1 r1.2.1 r1.2.2
  else r1

/-- `do_recall(store, query, user_id, team_id)` at clock value `now`.
`hybrid` and `txt` are the outcomes of the two index queries (a `none`
outcome models the call raising, caught and logged); `graphFails` models
`find_related` raising in stage 3 — that loop is not inside a
try/except, so the exception propagates (`Except.error`).  On success,
returns the message, the structured results, and the resulting state;
the set-iteration order `list(seen_ids)[:2]` is modelled as insertion
order. -/
def do_recall (st : State) (uid : String) (team_id : Option String) (now : ℚ)
    (hybrid txt : Option (List (String × ℚ))) (graphFails : Bool) :
    Except String (String × List RItem × State) :=
  let r2 := recallStage2 uid team_id now txt (recallStage1 uid team_id now hybrid st)
  if r2.2.1.length < 3 then
    if graphFails && !(r2.1.take 2).isEmpty then
      Except.error "find_related raised"
    else
      let g := graphFold uid r2.2.2 (r2.1.take 2) r2.1 r2.2.1
      Except.ok (recallMessage team_id g.2, g.2, r2.2.2)
  else
    Except.ok (recallMessage team_id r2.2.1, r2.2.1, r2.2.2)

/-! ### Well-formedness of stored states -/

/-- Whether a key is a memory key. -/
def PKey.isMem : PKey → Bool
  | .mem _ => true
  | _ => false

/-- Well-formed states: point ids are unique (the index keys points by
`_stable_id`), and memory-type payloads sit exactly at the key derived
from their domain id (`insert_memory` keys the point by `memory.id`).
Every state reachable by the modelled writers from the empty collection
satisfies this. -/
def WF (st : State) : Prop :=
  (st.map Point.pid).Nodup ∧
    ∀ pt ∈ st, (pt.payload.type = "memory" ↔ pt.pid.isMem = true) ∧
      (pt.pid.isMem = true → pt.pid = PKey.mem pt.payload.memory_id)

theorem WF.tail {q : Point} {st : State} (h : WF (q :: st)) : WF st :=
  ⟨(List.nodup_cons.mp h.1).2, fun pt hpt => h.2 pt (List.mem_cons_of_mem q hpt)⟩

theorem scrollFirst_eq_some {cond : Payload → Bool} {st : State} {pt : Point}
    (h : scrollFirst cond st = some pt) : pt ∈ st ∧ cond pt.payload = true :=
  ⟨List.mem_of_find?_eq_some h, by have := List.find?_some h; simpa using this⟩

/-- In a well-formed state, the point stored at a memory key under the
right user is what `scrollFirst` finds. -/
theorem scrollFirst_mem_unique {st : State} (hwf : WF st) {pt : Point} {mid uid : String}
    (hmem : pt ∈ st) (hpid : pt.pid = PKey.mem mid) (huid : pt.payload.user_id = uid) :
    scrollFirst (memCond mid uid) st = some pt := by
  have hclauses := hwf.2 pt hmem
  have hisMem : pt.pid.isMem = true := by rw [hpid]; rfl
  have htype : pt.payload.type = "memory" := hclauses.1.mpr hisMem
  have hmid : pt.payload.memory_id = mid := by
    have := hclauses.2 hisMem
    rw [hpid] at this
    exact (PKey.mem.injEq _ _ ▸ this.symm)
  have hcond : memCond mid uid pt.payload = true := by
    simp [memCond, htype, hmid, huid]
  induction st with
  | nil => cases hmem
  | cons q rest ih =>
      by_cases hc : memCond mid uid q.payload = true
      · -- the head matches; show it is `pt`
        have hqtype : q.payload.type = "memory" := by
          simp only [memCond, Bool.and_eq_true, decide_eq_true_eq] at hc
          exact hc.1.1
        have hqclauses := hwf.2 q (List.mem_cons_self q rest)
        have hqpid : q.pid = PKey.mem q.payload.memory_id :=
          hqclauses.2 (hqclauses.1.mp hqtype)
        have hqmid : q.payload.memory_id = mid := by
          simp only [memCond, Bool.and_eq_true, decide_eq_true_eq] at hc
          exact hc.1.2
        have hqp : q.pid = PKey.mem mid := by rw [hqpid, hqmid]
        have hq_eq : pt = q := by
          rcases List.mem_cons.mp hmem with h | h
          · exact h
          · exact absurd (List.mem_map.mpr ⟨pt, h, hpid.trans hqp.symm⟩)
              (List.nodup_cons.mp hwf.1).1
        rw [hq_eq]
        exact List.find?_cons_of_pos rest hc
      · have hpt_tail : pt ∈ rest := by
          rcases List.mem_cons.mp hmem with h | h
          · exact absurd (h ▸ hcond) hc
          · exact h
        rw [scrollFirst] at *
        rw [List.find?_cons_of_neg rest (by simpa using hc)]
        exact ih hwf.tail hpt_tail

/-- A point whose pid differs from the `set_payload` target survives
unchanged. -/
theorem mem_setPayloadWith_of_ne {st : State} {pt : Point} {k : PKey}
    {f : Payload → Payload} (h : pt ∈ st) (hne : pt.pid ≠ k) :
    pt ∈ setPayloadWith k f st := by
  unfold setPayloadWith
  refine List.mem_map.mpr ⟨pt, h, ?_⟩
  rw [if_neg hne]

/-- The `set_payload` target's image is in the result. -/
theorem mem_setPayloadWith_self {st : State} {pt : Point}
    {f : Payload → Payload} (h : pt ∈ st) :
    (Point.mk pt.pid (f pt.payload)) ∈ setPayloadWith pt.pid f st := by
  unfold setPayloadWith
  refine List.mem_map.mpr ⟨pt, h, ?_⟩
  rw [if_pos rfl]

/-- `set_payload` does not change the key sequence. -/
theorem setPayloadWith_pids {st : State} {k : PKey} {f : Payload → Payload} :
    (setPayloadWith k f st).map Point.pid = st.map Point.pid := by
  unfold setPayloadWith
  rw [List.map_map]
  apply List.map_congr_left
  intro q _
  by_cases h : q.pid = k <;> simp [h]

/-- An upsert with a fresh key appends. -/
theorem upsert_fresh {st : State} {pt : Point} (h : ∀ q ∈ st, q.pid ≠ pt.pid) :
    upsert pt st = st ++ [pt] := by
  unfold upsert
  rw [if_neg]
  intro hc
  simp only [List.any_eq_true, decide_eq_true_eq] at hc
  obtain ⟨q, hq, he⟩ := hc
  exact h q hq he

/-- A point whose key differs from the upserted one survives. -/
theorem mem_upsert_of_ne {st : State} {pt q : Point} (h : q ∈ st)
    (hne : q.pid ≠ pt.pid) : q ∈ upsert pt st := by
  unfold upsert
  by_cases hc : st.any (fun r => r.pid = pt.pid)
  · rw [if_pos hc]
    have : (if q.pid = pt.pid then pt else q) = q := by rw [if_neg (by simpa using hne)]
    exact this ▸ List.mem_map_of_mem _ h
  · rw [if_neg hc]
    exact List.mem_append_left _ h

/-- Finding through a `set_payload` whose update does not disturb the
filter fields commutes with finding first. -/
theorem scrollFirst_setPayloadWith {c : Payload → Bool} {k : PKey}
    {f : Payload → Payload} (hf : ∀ p, c (f p) = c p) (st : State) :
    scrollFirst c (setPayloadWith k f st)
      = (scrollFirst c st).map
          (fun q => if q.pid = k then Point.mk q.pid (f q.payload) else q) := by
  induction st with
  | nil => rfl
  | cons q rest ih =>
      show List.find? _ (_ :: _) = _
      by_cases hc : c q.payload = true
      · have himg : c ((if q.pid = k then Point.mk q.pid (f q.payload) else q).payload)
            = true := by
          by_cases hq : q.pid = k <;> simp [hq, hf, hc]
        rw [List.find?_cons_of_pos _ (by simpa using himg)]
        rw [show scrollFirst c (q :: rest) = some q from
          List.find?_cons_of_pos _ (by simpa using hc)]
        rfl
      · have himg : ¬ c ((if q.pid = k then Point.mk q.pid (f q.payload) else q).payload)
            = true := by
          by_cases hq : q.pid = k <;> simp [hq, hf, hc]
        rw [List.find?_cons_of_neg _ (by simpa using himg)]
        rw [show scrollFirst c (q :: rest)
            = List.find? (fun pt => c pt.payload) rest from
          List.find?_cons_of_neg _ (by simpa using hc)]
        exact ih

/-- `WF` is preserved by a `set_payload` that keeps the `type` and
`memory_id` fields. -/
theorem WF_setPayloadWith {st : State} {k : PKey} {f : Payload → Payload}
    (hwf : WF st) (hf : ∀ p, (f p).type = p.type ∧ (f p).memory_id = p.memory_id) :
    WF (setPayloadWith k f st) := by
  constructor
  · rw [setPayloadWith_pids]; exact hwf.1
  · intro pt hpt
    obtain ⟨q, hq, hEq⟩ := List.mem_map.mp hpt
    by_cases hqk : q.pid = k
    · rw [if_pos hqk] at hEq
      have := hwf.2 q hq
      rw [← hEq]
      simp only [(hf q.payload).1, (hf q.payload).2]
      exact this
    · rw [if_neg hqk] at hEq
      exact hEq ▸ hwf.2 q hq

/-- `WF` is preserved by upserting a point that itself satisfies the
per-point clauses. -/
theorem WF_upsert {st : State} {pt : Point} (hwf : WF st)
    (hpt : (pt.payload.type = "memory" ↔ pt.pid.isMem = true) ∧
      (pt.pid.isMem = true → pt.pid = PKey.mem pt.payload.memory_id)) :
    WF (upsert pt st) := by
  unfold upsert
  by_cases hc : st.any (fun q => q.pid = pt.pid) = true
  · rw [if_pos hc]
    constructor
    · have : (st.map (fun q => if q.pid = pt.pid then pt else q)).map Point.pid
          = st.map Point.pid := by
        rw [List.map_map]
        apply List.map_congr_left
        intro q _
        by_cases h : q.pid = pt.pid <;> simp [h]
      rw [this]; exact hwf.1
    · intro r hr
      obtain ⟨q, hq, hEq⟩ := List.mem_map.mp hr
      by_cases h : q.pid = pt.pid
      · rw [if_pos h] at hEq; exact hEq ▸ hpt
      · rw [if_neg h] at hEq; exact hEq ▸ hwf.2 q hq
  · rw [if_neg hc]
    constructor
    · rw [List.map_append]
      refine List.Nodup.append hwf.1 (List.nodup_singleton _) ?_
      intro a ha hb
      simp only [List.map_cons, List.map_nil, List.mem_singleton] at hb
      obtain ⟨q, hq, hqa⟩ := List.mem_map.mp ha
      simp only [List.any_eq_true, decide_eq_true_eq, not_exists, not_and] at hc
      push_neg at hc
      exact hc q hq (hqa.symm ▸ hb ▸ rfl)
    · intro r hr
      rcases List.mem_append.mp hr with h | h
      · exact hwf.2 r h
      · rw [List.mem_singleton.mp h]; exact hpt

theorem WF_touch_memory {st : State} (hwf : WF st) (mid uid : String) (now : ℚ) :
    WF (touch_memory st mid uid now) := by
  unfold touch_memory
  cases scrollFirst (memCond mid uid) st with
  | none => exact hwf
  | some pt => exact WF_setPayloadWith hwf (fun p => ⟨rfl, rfl⟩)

theorem WF_update_confidence {st : State} (hwf : WF st) (mid : String) (c : ℚ)
    (uid : String) : WF (update_confidence st mid c uid) := by
  unfold update_confidence
  cases scrollFirst (memCond mid uid) st with
  | none => exact hwf
  | some pt => exact WF_setPayloadWith hwf (fun p => ⟨rfl, rfl⟩)

theorem WF_update_sensitivity {st : State} (hwf : WF st) (mid lvl : String)
    (reason : Option String) (uid : String) :
    WF (update_sensitivity st mid lvl reason uid) := by
  unfold update_sensitivity
  cases scrollFirst (memCond mid uid) st with
  | none => exact hwf
  | some pt => exact WF_setPayloadWith hwf (fun p => ⟨rfl, rfl⟩)

theorem WF_add_edge {st : State} (hwf : WF st) (a b r uid : String) :
    WF (add_edge st a b r uid) := by
  unfold add_edge
  cases scrollFirst (memCond a uid) st with
  | none => exact hwf
  | some pt =>
      dsimp only
      by_cases hdup : pt.payload.edges.any (fun e => e.toId = b && e.relation = r) = true
      · rw [if_pos hdup]; exact hwf
      · rw [if_neg hdup]
        exact WF_setPayloadWith hwf (fun p => ⟨rfl, rfl⟩)

theorem WF_insert_memory {st : State} (hwf : WF st) (m : Memory) (uid : String)
    (v t c : Option String) : WF (insert_memory st m uid v t c) := by
  unfold insert_memory
  exact WF_upsert hwf ⟨by simp [memoryPayload, PKey.isMem], by intro _; simp [memoryPayload]⟩

theorem WF_insert_journal {st : State} (hwf : WF st) (e : JournalEntry) (uid : String) :
    WF (insert_journal st e uid) := by
  unfold insert_journal
  exact WF_upsert hwf ⟨by simp [journalPayload, journalKey, PKey.isMem], by
    intro h; simp [journalKey, PKey.isMem] at h⟩

/-! ### Frame effect of touching (claim C10) -/

/-- A payload with its access-tracking fields blanked; two payloads
agree on every other field iff their `eraseAccess` images are equal. -/
def eraseAccess (p : Payload) : Payload :=
  { p with last_accessed := 0, access_count := 0 }

theorem forall₂_map_self {R : Point → Point → Prop} {g : Point → Point}
    (h : ∀ x, R x (g x)) : ∀ l : List Point, List.Forall₂ R l (l.map g)
  | [] => List.Forall₂.nil
  | x :: xs => List.Forall₂.cons (h x) (forall₂_map_self h xs)

/-- C10: `touch_memory` modifies only the `last_accessed` and
`access_count` fields — every point keeps its key and every other
payload field (content, gate, person, project, confidence, decay_class,
pinned, sensitivity, sensitivity_reason, visibility, team_id,
created_by, edges) — and when no memory with the given id exists in the
caller's tenant it changes nothing at all. -/
theorem touch_memory_frame (st : State) (mid uid : String) (now : ℚ) :
    List.Forall₂
      (fun a b => a.pid = b.pid ∧ eraseAccess a.payload = eraseAccess b.payload)
      st (touch_memory st mid uid now) ∧
    (scrollFirst (memCond mid uid) st = none → touch_memory st mid uid now = st) := by
  constructor
  · unfold touch_memory
    cases h : scrollFirst (memCond mid uid) st with
    | none => exact List.forall₂_same.mpr fun x _ => ⟨rfl, rfl⟩
    | some pt =>
        unfold setPayloadWith
        refine forall₂_map_self (fun x => ?_) st
        by_cases hx : x.pid = pt.pid
        · rw [if_pos hx]
          exact ⟨rfl, rfl⟩
        · rw [if_neg hx]
          exact ⟨rfl, rfl⟩
  · intro h
    unfold touch_memory
    rw [h]

/-- Sample memory point used in concrete witnesses. -/
def mkMemPoint (mid uid : String) (now : ℚ) (g : Gate) (content : String) : Point :=
  ⟨PKey.mem mid,
    memoryPayload
      { id := mid, created := now, gate := g, person := none, project := none,
        confidence := (9/10 : ℚ), last_accessed := now, access_count := 1,
        decay_class := DecayClass.from_gate g, content := content, pinned := false,
        sensitivity := none, sensitivity_reason := none, visibility := .priv,
        team_id := none, created_by := none } uid⟩

/-- Witness for C10: touching an id that is absent from the tenant
leaves a concrete one-point state unchanged. -/
theorem touch_memory_frame_witness :
    touch_memory [mkMemPoint "m1" "u" 3 .epistemic "hello"] "m2" "u" 7
      = [mkMemPoint "m1" "u" 3 .epistemic "hello"] :=
  (touch_memory_frame [mkMemPoint "m1" "u" 3 .epistemic "hello"] "m2" "u" 7).2 (by decide)

/-! ### Edge idempotence (claim C7) -/

theorem edge_match_iff (b r : String) (e : GEdge) :
    ((e.toId = b && e.relation = r) = true) ↔ e = ⟨b, r⟩ := by
  cases e with
  | mk t q =>
      simp only [Bool.and_eq_true, decide_eq_true_eq, GEdge.mk.injEq]

theorem any_edge_iff (b r : String) (l : List GEdge) :
    (l.any fun e => e.toId = b && e.relation = r) = true ↔ (⟨b, r⟩ : GEdge) ∈ l := by
  rw [List.any_eq_true]
  constructor
  · rintro ⟨e, he, hm⟩
    exact ((edge_match_iff b r e).mp hm) ▸ he
  · intro h
    exact ⟨⟨b, r⟩, h, (edge_match_iff b r ⟨b, r⟩).mpr rfl⟩

/-- The no-duplicate branch of `add_edge`, as an equation. -/
theorem add_edge_append {st : State} {a uid : String} {pt : Point}
    (h : scrollFirst (memCond a uid) st = some pt) {b r : String}
    (hdup : (⟨b, r⟩ : GEdge) ∉ pt.payload.edges) :
    add_edge st a b r uid
      = setPayloadWith pt.pid
          (fun p => { p with edges := pt.payload.edges ++ [⟨b, r⟩] }) st := by
  unfold add_edge
  rw [h]
  dsimp only
  rw [if_neg (fun hc => hdup ((any_edge_iff b r _).mp hc))]

/-- The duplicate branch of `add_edge`, as an equation. -/
theorem add_edge_dup {st : State} {a uid : String} {pt : Point}
    (h : scrollFirst (memCond a uid) st = some pt) {b r : String}
    (hdup : (⟨b, r⟩ : GEdge) ∈ pt.payload.edges) :
    add_edge st a b r uid = st := by
  unfold add_edge
  rw [h]
  dsimp only
  rw [if_pos ((any_edge_iff b r _).mpr hdup)]

/-- The missing-source branch of `add_edge`. -/
theorem add_edge_none {st : State} {a uid : String}
    (h : scrollFirst (memCond a uid) st = none) (b r : String) :
    add_edge st a b r uid = st := by
  unfold add_edge
  rw [h]

/-- After the append branch, the source point is found again with the
appended edge list. -/
theorem scrollFirst_after_add {st : State} {a uid : String} {pt : Point}
    (h : scrollFirst (memCond a uid) st = some pt) (b r : String)
    (hdup : (⟨b, r⟩ : GEdge) ∉ pt.payload.edges) :
    scrollFirst (memCond a uid) (add_edge st a b r uid)
      = some (Point.mk pt.pid { pt.payload with edges := pt.payload.edges ++ [⟨b, r⟩] }) := by
  rw [add_edge_append h hdup]
  rw [scrollFirst_setPayloadWith (c := memCond a uid)
    (f := fun p => { p with edges := pt.payload.edges ++ [⟨b, r⟩] }) (fun p => rfl) st]
  rw [h]
  simp

/-- C7: `AddEdge` is idempotent — a repeated call is absorbed; a call
whose `(to_id, relation)` pair is already present leaves the state
unchanged; and after calling `AddEdge(a,b,r)` twice starting from a
state whose source memory holds the pair at most once, the pair occurs
exactly once in the source's edge sequence. -/
theorem add_edge_idempotent (st : State) (a b r uid : String) :
    add_edge (add_edge st a b r uid) a b r uid = add_edge st a b r uid ∧
    (∀ pt, scrollFirst (memCond a uid) st = some pt →
      (⟨b, r⟩ : GEdge) ∈ pt.payload.edges → add_edge st a b r uid = st) ∧
    (∀ pt, scrollFirst (memCond a uid) st = some pt →
      pt.payload.edges.count ⟨b, r⟩ ≤ 1 →
      ∀ pt₂, scrollFirst (memCond a uid) (add_edge (add_edge st a b r uid) a b r uid)
          = some pt₂ →
        pt₂.payload.edges.count ⟨b, r⟩ = 1) := by
  refine ⟨?_, ?_, ?_⟩
  · cases h : scrollFirst (memCond a uid) st with
    | none => rw [add_edge_none h, add_edge_none h]
    | some pt =>
        by_cases hdup : (⟨b, r⟩ : GEdge) ∈ pt.payload.edges
        · rw [add_edge_dup h hdup, add_edge_dup h hdup]
        · rw [add_edge_dup (scrollFirst_after_add h b r hdup)
            (by simp [List.mem_append])]
  · intro pt h hmem
    exact add_edge_dup h hmem
  · intro pt h hcount pt₂ h₂
    by_cases hdup : (⟨b, r⟩ : GEdge) ∈ pt.payload.edges
    · rw [add_edge_dup h hdup, add_edge_dup h hdup, h] at h₂
      cases h₂
      have h1 : pt.payload.edges.count (⟨b, r⟩ : GEdge) ≠ 0 :=
        fun hc => (List.count_eq_zero.mp hc) hdup
      omega
    · rw [add_edge_dup (scrollFirst_after_add h b r hdup)
        (by simp [List.mem_append]), scrollFirst_after_add h b r hdup] at h₂
      cases h₂
      have h0 : pt.payload.edges.count (⟨b, r⟩ : GEdge) = 0 :=
        List.count_eq_zero.mpr hdup
      simp [List.count_append, h0]

/-- Elements of an upsert come from the state or are the new point. -/
theorem mem_upsert_elts {st : State} {pt q : Point} (h : q ∈ upsert pt st) :
    q ∈ st ∨ q = pt := by
  unfold upsert at h
  by_cases hc : st.any (fun r => r.pid = pt.pid) = true
  · rw [if_pos hc] at h
    obtain ⟨x, hx, hEq⟩ := List.mem_map.mp h
    by_cases hxe : x.pid = pt.pid
    · rw [if_pos hxe] at hEq; exact Or.inr hEq.symm
    · rw [if_neg hxe] at hEq; exact Or.inl (hEq ▸ hx)
  · rw [if_neg hc] at h
    rcases List.mem_append.mp h with h | h
    · exact Or.inl h
    · exact Or.inr (List.mem_singleton.mp h)

/-- A point whose pid is not the `add_edge` source survives unchanged
(the found source point has a `.mem` pid by well-formedness). -/
theorem mem_add_edge_of_ne {st : State} (hwf : WF st) {pt : Point} {a : String}
    (h : pt ∈ st) (hne : pt.pid ≠ PKey.mem a) (b r uid : String) :
    pt ∈ add_edge st a b r uid := by
  unfold add_edge
  cases hs : scrollFirst (memCond a uid) st with
  | none => exact h
  | some q =>
      have hq := scrollFirst_eq_some hs
      have hqtype : q.payload.type = "memory" := by
        have := hq.2
        simp only [memCond, Bool.and_eq_true, decide_eq_true_eq] at this
        exact this.1.1
      have hqmid : q.payload.memory_id = a := by
        have := hq.2
        simp only [memCond, Bool.and_eq_true, decide_eq_true_eq] at this
        exact this.1.2
      have hqpid : q.pid = PKey.mem a := by
        have hc := hwf.2 q hq.1
        rw [hc.2 (hc.1.mp hqtype), hqmid]
      dsimp only
      by_cases hdup : q.payload.edges.any (fun e => e.toId = b && e.relation = r) = true
      · rw [if_pos hdup]; exact h
      · rw [if_neg hdup]
        exact mem_setPayloadWith_of_ne h (hqpid ▸ hne)

/-- A point whose pid is not the touched memory survives a
`touch_memory` unchanged. -/
theorem mem_touch_memory_of_ne {st : State} (hwf : WF st) {pt : Point} {mid : String}
    (h : pt ∈ st) (hne : pt.pid ≠ PKey.mem mid) (uid : String) (now : ℚ) :
    pt ∈ touch_memory st mid uid now := by
  unfold touch_memory
  cases hs : scrollFirst (memCond mid uid) st with
  | none => exact h
  | some q =>
      have hq := scrollFirst_eq_some hs
      have hqc := hq.2
      simp only [memCond, Bool.and_eq_true, decide_eq_true_eq] at hqc
      have hc := hwf.2 q hq.1
      have hqpid : q.pid = PKey.mem mid := by rw [hc.2 (hc.1.mp hqc.1.1), hqc.1.2]
      exact mem_setPayloadWith_of_ne h (hqpid ▸ hne)

/-- A point whose pid is not the updated memory survives an
`update_confidence` unchanged. -/
theorem mem_update_confidence_of_ne {st : State} (hwf : WF st) {pt : Point} {mid : String}
    (h : pt ∈ st) (hne : pt.pid ≠ PKey.mem mid) (c : ℚ) (uid : String) :
    pt ∈ update_confidence st mid c uid := by
  unfold update_confidence
  cases hs : scrollFirst (memCond mid uid) st with
  | none => exact h
  | some q =>
      have hq := scrollFirst_eq_some hs
      have hqc := hq.2
      simp only [memCond, Bool.and_eq_true, decide_eq_true_eq] at hqc
      have hc := hwf.2 q hq.1
      have hqpid : q.pid = PKey.mem mid := by rw [hc.2 (hc.1.mp hqc.1.1), hqc.1.2]
      exact mem_setPayloadWith_of_ne h (hqpid ▸ hne)

/-- A point whose pid is not the reclassified memory survives an
`update_sensitivity` unchanged. -/
theorem mem_update_sensitivity_of_ne {st : State} (hwf : WF st) {pt : Point} {mid : String}
    (h : pt ∈ st) (hne : pt.pid ≠ PKey.mem mid) (lvl : String) (rsn : Option String)
    (uid : String) : pt ∈ update_sensitivity st mid lvl rsn uid := by
  unfold update_sensitivity
  cases hs : scrollFirst (memCond mid uid) st with
  | none => exact h
  | some q =>
      have hq := scrollFirst_eq_some hs
      have hqc := hq.2
      simp only [memCond, Bool.and_eq_true, decide_eq_true_eq] at hqc
      have hc := hwf.2 q hq.1
      have hqpid : q.pid = PKey.mem mid := by rw [hc.2 (hc.1.mp hqc.1.1), hqc.1.2]
      exact mem_setPayloadWith_of_ne h (hqpid ▸ hne)

/-- The point produced by the concrete C7 witness run. -/
def addEdgeWitnessPoint : Point :=
  ⟨PKey.mem "m1",
    { (mkMemPoint "m1" "u" 3 .epistemic "hello").payload with
        edges := [⟨"m9", "FOLLOWS"⟩] }⟩

/-- Witness for C7: on a concrete one-memory state, two `AddEdge` calls
leave exactly one `(b, r)` edge. -/
theorem add_edge_idempotent_witness :
    addEdgeWitnessPoint.payload.edges.count ⟨"m9", "FOLLOWS"⟩ = 1 :=
  (add_edge_idempotent [mkMemPoint "m1" "u" 3 .epistemic "hello"] "m1" "m9" "FOLLOWS" "u").2.2
    (mkMemPoint "m1" "u" 3 .epistemic "hello") (by rfl) (by decide)
    addEdgeWitnessPoint (by rfl)

/-! ### Length bookkeeping for the write pipeline -/

theorem length_setPayloadWith {st : State} {k : PKey} {f : Payload → Payload} :
    (setPayloadWith k f st).length = st.length :=
  List.length_map st _

theorem length_upsert {st : State} {pt : Point} :
    st.length ≤ (upsert pt st).length := by
  unfold upsert
  by_cases hc : st.any (fun r => r.pid = pt.pid) = true
  · rw [if_pos hc, List.length_map]
  · rw [if_neg hc, List.length_append]
    omega

theorem length_add_edge {st : State} {a b r uid : String} :
    (add_edge st a b r uid).length = st.length := by
  unfold add_edge
  cases scrollFirst (memCond a uid) st with
  | none => rfl
  | some pt =>
      dsimp only
      by_cases hdup : pt.payload.edges.any (fun e => e.toId = b && e.relation = r) = true
      · rw [if_pos hdup]
      · rw [if_neg hdup]; exact length_setPayloadWith

theorem length_update_confidence {st : State} {mid : String} {c : ℚ} {uid : String} :
    (update_confidence st mid c uid).length = st.length := by
  unfold update_confidence
  cases scrollFirst (memCond mid uid) st with
  | none => rfl
  | some pt => exact length_setPayloadWith

theorem length_update_sensitivity {st : State} {mid lvl : String} {rsn : Option String}
    {uid : String} : (update_sensitivity st mid lvl rsn uid).length = st.length := by
  unfold update_sensitivity
  cases scrollFirst (memCond mid uid) st with
  | none => rfl
  | some pt => exact length_setPayloadWith

theorem length_corrApply {mem_id uid : String} {st : State} {pr : String × ℚ} :
    (corrApply mem_id uid st pr).length = st.length := by
  unfold corrApply
  by_cases hc : (pr.1 ≠ mem_id && pr.2 > (1/2 : ℚ)) = true
  · rw [if_pos hc]
    dsimp only
    cases get_memory (add_edge st mem_id pr.1 "CONTRADICTS" uid) pr.1 uid with
    | none => exact length_add_edge
    | some old => rw [length_update_confidence, length_add_edge]
  · rw [if_neg hc]

theorem length_corrFold {mem_id uid : String} :
    ∀ (sim : List (String × ℚ)) (st : State),
      (sim.foldl (corrApply mem_id uid) st).length = st.length
  | [], _ => rfl
  | pr :: rest, st => by
      rw [List.foldl_cons, length_corrFold rest, length_corrApply]

theorem length_correctionStep {st : State} {mem_id uid : String}
    {s1 : Option (List (String × ℚ))} :
    (correctionStep st mem_id uid s1).length = st.length := by
  unfold correctionStep
  cases s1 with
  | none => rfl
  | some sim => exact length_corrFold sim st

theorem length_followsStep {st : State} {mem_id uid : String} {person project : Option String}
    {now : ℚ} {cf : Bool} :
    (followsStep st mem_id uid person project now cf).length = st.length := by
  unfold followsStep
  by_cases hcf : cf = true
  · rw [if_pos hcf]
  · rw [if_neg hcf]
    cases find_recent_in_context st mem_id (now - 86400) person project uid with
    | none => rfl
    | some rid => exact length_add_edge

theorem length_classifyStep {st : State} {mem_id uid : String} {ak : Option String}
    {co : Option (String × String)} {w : String} :
    (classifyStep st mem_id uid ak co w).1.length = st.length := by
  unfold classifyStep
  cases ak with
  | none => rfl
  | some k =>
      cases co with
      | none => rfl
      | some lr =>
          dsimp only
          by_cases hc : (lr.1 ≠ "safe" && lr.1 ≠ "unknown") = true
          · rw [if_pos hc]; exact length_update_sensitivity
          · rw [if_neg hc]

/-! ### Branch equations for `do_remember` -/

/-- The journal entry built by `do_remember`. -/
def rememberEntry (content : String) (g : Gate) (person project : Option String)
    (now : ℚ) : JournalEntry :=
  { timestamp := now, gate := g, content := content, person := person, project := project }

/-- The `Memory` value built by `do_remember` (before team overrides). -/
def rememberMemory (content : String) (g : Gate) (person project : Option String)
    (now : ℚ) (rand4 : String) : Memory :=
  { id := memIdStr now rand4, created := now, gate := g, person := person,
    project := project, confidence := (9/10 : ℚ), last_accessed := now,
    access_count := 1, decay_class := DecayClass.from_gate g, content := content,
    pinned := false, sensitivity := none, sensitivity_reason := none,
    visibility := .priv, team_id := none, created_by := none }

theorem do_remember_invalid {gs : String} (h : Gate.from_str gs = none)
    (st : State) (content : String) (person project : Option String)
    (uid vis : String) (tid : Option String) (now : ℚ) (rand4 : String)
    (s3 s1 : Option (List (String × ℚ))) (cf : Bool) (pw ak : Option String)
    (co : Option (String × String)) :
    do_remember st content gs person project uid vis tid now rand4 s3 s1 cf pw ak co
      = (invalidGateMsg gs, st) := by
  unfold do_remember
  rw [h]

theorem do_remember_team_err {gs : String} {g : Gate} (h : Gate.from_str gs = some g)
    {vis : String} (hvis : vis = "team") {tid : Option String}
    (htid : truthy tid = false)
    (st : State) (content : String) (person project : Option String)
    (uid : String) (now : ℚ) (rand4 : String)
    (s3 s1 : Option (List (String × ℚ))) (cf : Bool) (pw ak : Option String)
    (co : Option (String × String)) :
    do_remember st content gs person project uid vis tid now rand4 s3 s1 cf pw ak co
      = (teamConfigMsg,
         insert_journal st (rememberEntry content g person project now) uid) := by
  unfold do_remember
  rw [h]
  dsimp only
  rw [if_pos (by simp [hvis, htid])]
  rfl

theorem do_remember_ok {gs : String} {g : Gate} (h : Gate.from_str gs = some g)
    {vis : String} {tid : Option String}
    (hv : ¬(vis = "team" ∧ truthy tid = false))
    (st : State) (content : String) (person project : Option String)
    (uid : String) (now : ℚ) (rand4 : String)
    (s3 s1 : Option (List (String × ℚ))) (cf : Bool) (pw ak : Option String)
    (co : Option (String × String)) :
    do_remember st content gs person project uid vis tid now rand4 s3 s1 cf pw ak co
      = (let mem_id := memIdStr now rand4
         let st1 := insert_journal st (rememberEntry content g person project now) uid
         let st2 := insert_memory st1 (rememberMemory content g person project now rand4) uid
           (if vis ≠ "private" then some vis else none)
           (if vis = "team" then tid else none)
           (if vis = "team" then some uid else none)
         let warning := contradictionWarning st2 content mem_id uid s3
         let st3 := if g = .correction then correctionStep st2 mem_id uid s1 else st2
         let st4 :=
           if truthy person || truthy project then
             followsStep st3 mem_id uid person project now cf
           else st3
         let warning := piiAppend warning pw
         let p := classifyStep st4 mem_id uid ak co warning
         let preview := if content.length > 80 then content.take 80 else content
         ("Remembered [" ++ g.value ++ "]: " ++ preview ++ " (id: " ++ mem_id ++ ")"
           ++ p.2, p.1)) := by
  unfold do_remember
  rw [h]
  dsimp only
  rw [if_neg (by
    simp only [Bool.and_eq_true, decide_eq_true_eq, Bool.not_eq_true']
    intro hc
    exact hv ⟨hc.1, hc.2⟩)]
  rfl

/-- Override application never changes the id, content, gate, person or
project of the memory. -/
theorem applyOverrides_fields (m : Memory) (v t c : Option String) :
    (applyOverrides m v t c).id = m.id ∧
    (applyOverrides m v t c).content = m.content ∧
    (applyOverrides m v t c).gate = m.gate ∧
    (applyOverrides m v t c).person = m.person ∧
    (applyOverrides m v t c).project = m.project := by
  unfold applyOverrides
  by_cases h1 : (truthy v || truthy t || truthy c) = true
  · rw [if_pos h1]
    dsimp only
    by_cases h2 : truthy v = true <;> by_cases h3 : truthy t = true <;>
      by_cases h4 : truthy c = true <;>
      simp [h2, h3, h4]
  · rw [if_neg h1]
    exact ⟨rfl, rfl, rfl, rfl, rfl⟩

/-! ### Frame relation through the side-effect steps -/

/-- Blank the fields the post-insert side-effect steps may mutate
(edges by `add_edge`, confidence by `update_confidence`, sensitivity by
`update_sensitivity`); everything else is frame. -/
def eraseMut (p : Payload) : Payload :=
  { p with edges := [], confidence := 0, sensitivity := none, sensitivity_reason := none }

/-- Pointwise frame relation:同 keys, same payloads up to the mutable
side-effect fields. -/
def FrameRel (st st' : State) : Prop :=
  List.Forall₂ (fun a b => a.pid = b.pid ∧ eraseMut a.payload = eraseMut b.payload) st st'

theorem FrameRel.refl (st : State) : FrameRel st st :=
  List.forall₂_same.mpr fun x _ => ⟨rfl, rfl⟩

theorem FrameRel.trans : ∀ {s t u : State}, FrameRel s t → FrameRel t u → FrameRel s u
  | _, _, _, List.Forall₂.nil, List.Forall₂.nil => List.Forall₂.nil
  | _, _, _, List.Forall₂.cons h1 t1, List.Forall₂.cons h2 t2 =>
      List.Forall₂.cons ⟨h1.1.trans h2.1, h1.2.trans h2.2⟩ (FrameRel.trans t1 t2)

theorem frameRel_setPayloadWith {st : State} {k : PKey} {f : Payload → Payload}
    (hf : ∀ p, eraseMut (f p) = eraseMut p) :
    FrameRel st (setPayloadWith k f st) := by
  unfold setPayloadWith FrameRel
  refine forall₂_map_self (fun x => ?_) st
  by_cases hx : x.pid = k
  · rw [if_pos hx]
    exact ⟨rfl, (hf x.payload).symm⟩
  · rw [if_neg hx]
    exact ⟨rfl, rfl⟩

theorem frameRel_add_edge {st : State} (a b r uid : String) :
    FrameRel st (add_edge st a b r uid) := by
  unfold add_edge
  cases scrollFirst (memCond a uid) st with
  | none => exact FrameRel.refl st
  | some pt =>
      dsimp only
      by_cases hdup : pt.payload.edges.any (fun e => e.toId = b && e.relation = r) = true
      · rw [if_pos hdup]; exact FrameRel.refl st
      · rw [if_neg hdup]
        exact frameRel_setPayloadWith (fun p => rfl)

theorem frameRel_update_confidence {st : State} (mid : String) (c : ℚ) (uid : String) :
    FrameRel st (update_confidence st mid c uid) := by
  unfold update_confidence
  cases scrollFirst (memCond mid uid) st with
  | none => exact FrameRel.refl st
  | some pt => exact frameRel_setPayloadWith (fun p => rfl)

theorem frameRel_update_sensitivity {st : State} (mid lvl : String) (rsn : Option String)
    (uid : String) : FrameRel st (update_sensitivity st mid lvl rsn uid) := by
  unfold update_sensitivity
  cases scrollFirst (memCond mid uid) st with
  | none => exact FrameRel.refl st
  | some pt => exact frameRel_setPayloadWith (fun p => rfl)

theorem frameRel_corrApply {mem_id uid : String} {st : State} {pr : String × ℚ} :
    FrameRel st (corrApply mem_id uid st pr) := by
  unfold corrApply
  by_cases hc : (pr.1 ≠ mem_id && pr.2 > (1/2 : ℚ)) = true
  · rw [if_pos hc]
    dsimp only
    cases get_memory (add_edge st mem_id pr.1 "CONTRADICTS" uid) pr.1 uid with
    | none => exact frameRel_add_edge mem_id pr.1 "CONTRADICTS" uid
    | some old =>
        exact (frameRel_add_edge mem_id pr.1 "CONTRADICTS" uid).trans
          (frameRel_update_confidence _ _ _)
  · rw [if_neg hc]; exact FrameRel.refl st

theorem frameRel_corrFold {mem_id uid : String} :
    ∀ (sim : List (String × ℚ)) (st : State),
      FrameRel st (sim.foldl (corrApply mem_id uid) st)
  | [], st => FrameRel.refl st
  | pr :: rest, st => by
      rw [List.foldl_cons]
      exact frameRel_corrApply.trans (frameRel_corrFold rest _)

theorem frameRel_correctionStep {st : State} (mem_id uid : String)
    (s1 : Option (List (String × ℚ))) :
    FrameRel st (correctionStep st mem_id uid s1) := by
  unfold correctionStep
  cases s1 with
  | none => exact FrameRel.refl st
  | some sim => exact frameRel_corrFold sim st

theorem frameRel_followsStep {st : State} (mem_id uid : String)
    (person project : Option String) (now : ℚ) (cf : Bool) :
    FrameRel st (followsStep st mem_id uid person project now cf) := by
  unfold followsStep
  by_cases hcf : cf = true
  · rw [if_pos hcf]; exact FrameRel.refl st
  · rw [if_neg hcf]
    cases find_recent_in_context st mem_id (now - 86400) person project uid with
    | none => exact FrameRel.refl st
    | some rid => exact frameRel_add_edge mem_id rid "FOLLOWS" uid

theorem frameRel_classifyStep {st : State} (mem_id uid : String) (ak : Option String)
    (co : Option (String × String)) (w : String) :
    FrameRel st (classifyStep st mem_id uid ak co w).1 := by
  unfold classifyStep
  cases ak with
  | none => exact FrameRel.refl st
  | some k =>
      cases co with
      | none => exact FrameRel.refl st
      | some lr =>
          dsimp only
          by_cases hc : (lr.1 ≠ "safe" && lr.1 ≠ "unknown") = true
          · rw [if_pos hc]; exact frameRel_update_sensitivity _ _ _ _
          · rw [if_neg hc]; exact FrameRel.refl st

/-- A member of the left state of a frame relation has a frame-equal
partner on the right. -/
theorem forall₂_mem_left {R : Point → Point → Prop} :
    ∀ {s t : State}, List.Forall₂ R s t → ∀ {pt : Point}, pt ∈ s →
      ∃ pt' ∈ t, R pt pt'
  | _, _, List.Forall₂.nil, pt, hmem => absurd hmem (List.not_mem_nil pt)
  | _, _, List.Forall₂.cons h tl, pt, hmem => by
      rcases List.mem_cons.mp hmem with hEq | hmem'
      · subst hEq
        exact ⟨_, List.mem_cons_self _ _, h⟩
      · obtain ⟨pt', hpt', hR⟩ := forall₂_mem_left tl hmem'
        exact ⟨pt', List.mem_cons_of_mem _ hpt', hR⟩

theorem FrameRel.mem {s t : State} (h : FrameRel s t) {pt : Point} (hmem : pt ∈ s) :
    ∃ pt' ∈ t, pt.pid = pt'.pid ∧ eraseMut pt.payload = eraseMut pt'.payload :=
  forall₂_mem_left h hmem

/-! ### Well-formedness through the side-effect steps -/

theorem WF_corrApply {st : State} (hwf : WF st) (mem_id uid : String) (pr : String × ℚ) :
    WF (corrApply mem_id uid st pr) := by
  unfold corrApply
  by_cases hc : (pr.1 ≠ mem_id && pr.2 > (1/2 : ℚ)) = true
  · rw [if_pos hc]
    dsimp only
    cases get_memory (add_edge st mem_id pr.1 "CONTRADICTS" uid) pr.1 uid with
    | none => exact WF_add_edge hwf _ _ _ _
    | some old => exact WF_update_confidence (WF_add_edge hwf _ _ _ _) _ _ _
  · rw [if_neg hc]; exact hwf

theorem WF_corrFold {mem_id uid : String} :
    ∀ (sim : List (String × ℚ)) {st : State}, WF st →
      WF (sim.foldl (corrApply mem_id uid) st)
  | [], _, hwf => hwf
  | pr :: rest, st, hwf => by
      rw [List.foldl_cons]
      exact WF_corrFold rest (WF_corrApply hwf mem_id uid pr)

theorem WF_correctionStep {st : State} (hwf : WF st) (mem_id uid : String)
    (s1 : Option (List (String × ℚ))) : WF (correctionStep st mem_id uid s1) := by
  unfold correctionStep
  cases s1 with
  | none => exact hwf
  | some sim => exact WF_corrFold sim hwf

theorem WF_followsStep {st : State} (hwf : WF st) (mem_id uid : String)
    (person project : Option String) (now : ℚ) (cf : Bool) :
    WF (followsStep st mem_id uid person project now cf) := by
  unfold followsStep
  by_cases hcf : cf = true
  · rw [if_pos hcf]; exact hwf
  · rw [if_neg hcf]
    cases find_recent_in_context st mem_id (now - 86400) person project uid with
    | none => exact hwf
    | some rid => exact WF_add_edge hwf _ _ _ _

theorem WF_classifyStep {st : State} (hwf : WF st) (mem_id uid : String)
    (ak : Option String) (co : Option (String × String)) (w : String) :
    WF (classifyStep st mem_id uid ak co w).1 := by
  unfold classifyStep
  cases ak with
  | none => exact hwf
  | some k =>
      cases co with
      | none => exact hwf
      | some lr =>
          dsimp only
          by_cases hc : (lr.1 ≠ "safe" && lr.1 ≠ "unknown") = true
          · rw [if_pos hc]; exact WF_update_sensitivity hwf _ _ _ _
          · rw [if_neg hc]; exact hwf

/-- The empty collection is well-formed. -/
theorem WF_nil : WF ([] : State) := by
  constructor
  · exact List.nodup_nil
  · intro pt hpt
    cases hpt

theorem Gate.ofValue_value (g : Gate) : Gate.ofValue g.value = some g := by
  cases g <;> rfl

/-- Core round-trip property of a completed `do_remember`: the freshly
written memory is retrievable under the caller's id, and its content,
gate, person and project are the stored images of the supplied values
(person/project via the `or ""` / `or None` storage round trip). -/
theorem remember_core {st : State} {content gs : String} {g : Gate}
    (hg : Gate.from_str gs = some g)
    {person project : Option String} {uid vis : String} {tid : Option String}
    (hv : ¬(vis = "team" ∧ truthy tid = false))
    {now : ℚ} {rand4 : String}
    (hwf : WF st)
    (hfresh : ∀ q ∈ st, q.pid ≠ PKey.mem (memIdStr now rand4))
    (s3 s1 : Option (List (String × ℚ))) (cf : Bool) (pw ak : Option String)
    (co : Option (String × String)) :
    ∃ m, get_memory
        (do_remember st content gs person project uid vis tid now rand4 s3 s1 cf pw ak co).2
        (memIdStr now rand4) uid = some m ∧
      m.content = content ∧ m.gate = g ∧
      m.person = orNone (some (person.getD "")) ∧
      m.project = orNone (some (project.getD "")) := by
  rw [do_remember_ok hg hv st content person project uid now rand4 s3 s1 cf pw ak co]
  dsimp only
  obtain ⟨hid, hcontent, hgate, hperson, hproject⟩ :=
    applyOverrides_fields (rememberMemory content g person project now rand4)
      (if vis ≠ "private" then some vis else none)
      (if vis = "team" then tid else none)
      (if vis = "team" then some uid else none)
  set mi := memIdStr now rand4 with hmi
  set m' := applyOverrides (rememberMemory content g person project now rand4)
      (if vis ≠ "private" then some vis else none)
      (if vis = "team" then tid else none)
      (if vis = "team" then some uid else none) with hm'
  set st1 := insert_journal st (rememberEntry content g person project now) uid with hst1
  have hwf1 : WF st1 := WF_insert_journal hwf _ _
  have hfresh1 : ∀ q ∈ st1, q.pid ≠ PKey.mem mi := by
    intro q hq
    rw [hst1] at hq
    unfold insert_journal at hq
    rcases mem_upsert_elts hq with hq | hq
    · exact hfresh q hq
    · rw [hq]
      simp [journalKey]
  have hmid : m'.id = mi := hid
  set newpt : Point := ⟨PKey.mem m'.id, memoryPayload m' uid⟩ with hnewpt
  have hst2 : insert_memory st1 (rememberMemory content g person project now rand4) uid
      (if vis ≠ "private" then some vis else none)
      (if vis = "team" then tid else none)
      (if vis = "team" then some uid else none) = st1 ++ [newpt] := by
    unfold insert_memory
    dsimp only
    rw [← hm', ← hnewpt]
    exact upsert_fresh (fun q hq => by
      rw [hnewpt]
      dsimp only
      rw [hmid]
      exact hfresh1 q hq)
  rw [hst2]
  have hwf2 : WF (st1 ++ [newpt]) := by
    rw [← hst2]
    exact WF_insert_memory hwf1 _ _ _ _ _
  have hnewmem : newpt ∈ st1 ++ [newpt] :=
    List.mem_append_right _ (List.mem_singleton.mpr rfl)
  -- frame through the three side-effect stages
  set st3 := (if g = Gate.correction then correctionStep (st1 ++ [newpt]) mi uid s1
    else st1 ++ [newpt]) with hst3
  have hframe23 : FrameRel (st1 ++ [newpt]) st3 := by
    rw [hst3]
    by_cases hc : g = Gate.correction
    · rw [if_pos hc]; exact frameRel_correctionStep _ _ _
    · rw [if_neg hc]; exact FrameRel.refl _
  have hwf3 : WF st3 := by
    rw [hst3]
    by_cases hc : g = Gate.correction
    · rw [if_pos hc]; exact WF_correctionStep hwf2 _ _ _
    · rw [if_neg hc]; exact hwf2
  set st4 := (if (truthy person || truthy project) = true then
      followsStep st3 mi uid person project now cf else st3) with hst4
  have hframe34 : FrameRel st3 st4 := by
    rw [hst4]
    by_cases hc : (truthy person || truthy project) = true
    · rw [if_pos hc]; exact frameRel_followsStep _ _ _ _ _ _
    · rw [if_neg hc]; exact FrameRel.refl _
  have hwf4 : WF st4 := by
    rw [hst4]
    by_cases hc : (truthy person || truthy project) = true
    · rw [if_pos hc]; exact WF_followsStep hwf3 _ _ _ _ _ _
    · rw [if_neg hc]; exact hwf3
  set w0 : String :=
    piiAppend (contradictionWarning (st1 ++ [newpt]) content mi uid s3) pw with hw0
  have hframe45 : FrameRel st4 (classifyStep st4 mi uid ak co w0).1 :=
    frameRel_classifyStep _ _ _ _ _
  have hwf5 : WF (classifyStep st4 mi uid ak co w0).1 :=
    WF_classifyStep hwf4 _ _ _ _ _
  have hframe := (hframe23.trans hframe34).trans hframe45
  obtain ⟨pt', hpt', hpid', hmut⟩ := hframe.mem hnewmem
  have hpid2 : pt'.pid = PKey.mem mi := by
    rw [← hpid', hnewpt]
    dsimp only
    rw [hmid]
  have huid2 : pt'.payload.user_id = uid := by
    have := congrArg Payload.user_id hmut
    simp only [eraseMut] at this
    rw [← this]
    rfl
  have hget := scrollFirst_mem_unique hwf5 hpt' hpid2 huid2
  refine ⟨memory_from_payload pt'.payload, ?_, ?_, ?_, ?_, ?_⟩
  · unfold get_memory
    rw [hget]
    rfl
  · have := congrArg Payload.content hmut
    simp only [eraseMut] at this
    rw [memory_from_payload, ← this]
    exact hcontent
  · have := congrArg Payload.gate hmut
    simp only [eraseMut] at this
    rw [memory_from_payload]
    dsimp only
    rw [← this]
    show (Gate.ofValue (memoryPayload m' uid).gate).getD .epistemic = g
    have : (memoryPayload m' uid).gate = g.value := by
      rw [memoryPayload]
      dsimp only
      rw [hgate]
      rfl
    rw [this, Gate.ofValue_value]
    rfl
  · have := congrArg Payload.person hmut
    simp only [eraseMut] at this
    rw [memory_from_payload]
    dsimp only
    rw [← this]
    show orNone (memoryPayload m' uid).person = orNone (some (person.getD ""))
    rw [memoryPayload]
    dsimp only
    rw [hperson]
    rfl
  · have := congrArg Payload.project hmut
    simp only [eraseMut] at this
    rw [memory_from_payload]
    dsimp only
    rw [← this]
    show orNone (memoryPayload m' uid).project = orNone (some (project.getD ""))
    rw [memoryPayload]
    dsimp only
    rw [hproject]
    rfl

/-- When the gate parses, `do_remember` strictly grows a state whose
journal key is fresh (the journal entry is appended and never removed by
the later steps). -/
theorem do_remember_grows {st : State} {content gs : String} {g : Gate}
    (hg : Gate.from_str gs = some g)
    (person project : Option String) (uid vis : String) (tid : Option String)
    (now : ℚ) (rand4 : String)
    (hjfresh : ∀ q ∈ st, q.pid ≠ journalKey uid now content)
    (s3 s1 : Option (List (String × ℚ))) (cf : Bool) (pw ak : Option String)
    (co : Option (String × String)) :
    st.length + 1 ≤
      (do_remember st content gs person project uid vis tid now rand4 s3 s1 cf pw ak co).2.length := by
  have hst1 : insert_journal st (rememberEntry content g person project now) uid
      = st ++ [⟨journalKey uid now content,
          journalPayload (rememberEntry content g person project now) uid⟩] := by
    unfold insert_journal
    exact upsert_fresh (fun q hq => hjfresh q hq)
  by_cases hv : vis = "team" ∧ truthy tid = false
  · rw [do_remember_team_err hg hv.1 hv.2 st content person project uid now rand4 s3 s1 cf pw ak co]
    dsimp only
    rw [hst1]
    simp
  · rw [do_remember_ok hg hv st content person project uid now rand4 s3 s1 cf pw ak co]
    dsimp only
    set mi := memIdStr now rand4 with hmi
    set st1 := insert_journal st (rememberEntry content g person project now) uid with h1
    set st2 := insert_memory st1 (rememberMemory content g person project now rand4) uid
      (if vis ≠ "private" then some vis else none)
      (if vis = "team" then tid else none)
      (if vis = "team" then some uid else none) with h2
    set st3 := (if g = Gate.correction then correctionStep st2 mi uid s1 else st2) with h3
    set st4 := (if (truthy person || truthy project) = true then
        followsStep st3 mi uid person project now cf else st3) with h4
    rw [length_classifyStep]
    have e4 : st4.length = st3.length := by
      rw [h4]
      by_cases hc : (truthy person || truthy project) = true
      · rw [if_pos hc, length_followsStep]
      · rw [if_neg hc]
    have e3 : st3.length = st2.length := by
      rw [h3]
      by_cases hc : g = Gate.correction
      · rw [if_pos hc, length_correctionStep]
      · rw [if_neg hc]
    have e2 : st1.length ≤ st2.length := by
      rw [h2]
      unfold insert_memory
      exact length_upsert
    have e1 : st1.length = st.length + 1 := by
      rw [hst1]
      simp
    omega

/-! ### Claim C2: gate validation -/

/-- C2 (amended): `Remember` returns the invalid-gate message with the
state unchanged exactly when `gate_str` fails to parse under
`Gate.from_str` — which accepts all eight gate values (the five primary
ones and the journal-only checkpoint / digest / observation), not only
the five primary ones; for every parse success it proceeds and persists
at least the journal record. -/
theorem remember_gate_validation (st : State) (content gs : String)
    (person project : Option String) (uid vis : String) (tid : Option String)
    (now : ℚ) (rand4 : String) (s3 s1 : Option (List (String × ℚ))) (cf : Bool)
    (pw ak : Option String) (co : Option (String × String))
    (hjfresh : ∀ q ∈ st, q.pid ≠ journalKey uid now content) :
    ((do_remember st content gs person project uid vis tid now rand4 s3 s1 cf pw ak co).2 = st ∧
      (do_remember st content gs person project uid vis tid now rand4 s3 s1 cf pw ak co).1
        = invalidGateMsg gs)
      ↔ Gate.from_str gs = none := by
  constructor
  · intro hpair
    cases hgs : Gate.from_str gs with
    | none => rfl
    | some g =>
        exfalso
        have hlen := do_remember_grows hgs person project uid vis tid now rand4 hjfresh
          s3 s1 cf pw ak co
        rw [hpair.1] at hlen
        omega
  · intro h
    rw [do_remember_invalid h st content person project uid vis tid now rand4 s3 s1 cf pw ak co]
    exact ⟨rfl, rfl⟩

/-- Witness for C2: a gibberish gate string is rejected with the
invalid-gate message and no state change on a concrete empty store. -/
theorem remember_gate_validation_witness :
    (do_remember [] "x" "nonsense" none none "u" "private" none 0 "ab"
        none none false none none none).2 = ([] : State) ∧
    (do_remember [] "x" "nonsense" none none "u" "private" none 0 "ab"
        none none false none none none).1 = invalidGateMsg "nonsense" :=
  (remember_gate_validation [] "x" "nonsense" none none "u" "private" none 0 "ab"
      none none false none none none (by intro q hq; cases hq)).mpr (by decide)

/-- Counterexample for C2 as stated: `gate_str = "checkpoint"` does not
parse to one of the five primary gates, yet `Remember` proceeds — the
returned message is a success message and both the journal record and
the memory record are persisted (2 points; the memory is retrievable). -/
theorem remember_gate_cex :
    (do_remember [] "hi" "checkpoint" none none "local" "private" none 0 "aaaa"
        (some []) none false none none none).1
      = "Remembered [checkpoint]: hi (id: " ++ memIdStr 0 "aaaa" ++ ")" ∧
    (do_remember [] "hi" "checkpoint" none none "local" "private" none 0 "aaaa"
        (some []) none false none none none).2.length = 2 ∧
    (get_memory (do_remember [] "hi" "checkpoint" none none "local" "private" none 0 "aaaa"
        (some []) none false none none none).2 (memIdStr 0 "aaaa") "local").isSome = true := by
  refine ⟨?_, ?_, ?_⟩ <;> rfl

/-! ### Claim C3: team-write configuration failure -/

/-- C3 (amended): a team-visibility `Remember` with an empty team fails
with the team-configuration error and persists no memory record — but it
is not atomic: the journal entry has already been appended before the
check, so the stored state does change by exactly that journal record. -/
theorem remember_team_config (st : State) (content gs : String) {g : Gate}
    (hg : Gate.from_str gs = some g)
    (person project : Option String) (uid : String) (tid : Option String)
    (htid : truthy tid = false) (now : ℚ) (rand4 : String)
    (s3 s1 : Option (List (String × ℚ))) (cf : Bool)
    (pw ak : Option String) (co : Option (String × String))
    (hjfresh : ∀ q ∈ st, q.pid ≠ journalKey uid now content) :
    do_remember st content gs person project uid "team" tid now rand4 s3 s1 cf pw ak co
      = (teamConfigMsg,
         st ++ [⟨journalKey uid now content,
                 journalPayload (rememberEntry content g person project now) uid⟩]) ∧
    ∀ pt ∈ (do_remember st content gs person project uid "team" tid now rand4
        s3 s1 cf pw ak co).2,
      pt.payload.type = "memory" → pt ∈ st := by
  have heq : do_remember st content gs person project uid "team" tid now rand4 s3 s1 cf pw ak co
      = (teamConfigMsg,
         st ++ [⟨journalKey uid now content,
                 journalPayload (rememberEntry content g person project now) uid⟩]) := by
    rw [do_remember_team_err hg rfl htid st content person project uid now rand4 s3 s1 cf pw ak co]
    unfold insert_journal
    rw [upsert_fresh (fun q hq => hjfresh q hq)]
    rfl
  refine ⟨heq, ?_⟩
  rw [heq]
  intro pt hpt htype
  rcases List.mem_append.mp hpt with h | h
  · exact h
  · exfalso
    rw [List.mem_singleton.mp h] at htype
    exact absurd htype (by simp [journalPayload])

/-- Witness for C3 (amended): concrete run showing the error message,
the appended journal record and the absence of any memory record. -/
theorem remember_team_config_witness :
    do_remember [] "hello" "epistemic" none none "u2" "team" (some "") 5 "cdcd"
        none none false none none none
      = (teamConfigMsg,
         [⟨journalKey "u2" 5 "hello",
           journalPayload (rememberEntry "hello" .epistemic none none 5) "u2"⟩]) :=
  (remember_team_config [] "hello" "epistemic" (by decide) none none "u2" (some "")
      (by decide) 5 "cdcd" none none false none none none (by intro q hq; cases hq)).1

/-- Counterexample for C3 as stated: the failing team write is not
atomic — on an initially empty store the call returns the ConfigError
message, yet the state now holds one record: the journal entry. -/
theorem remember_team_config_cex :
    do_remember [] "hi" "epistemic" none none "u1" "team" none 0 "aaaa"
        none none false none none none
      = (teamConfigMsg,
         [⟨journalKey "u1" 0 "hi",
           journalPayload (rememberEntry "hi" .epistemic none none 0) "u1"⟩]) ∧
    ([⟨journalKey "u1" 0 "hi",
       journalPayload (rememberEntry "hi" .epistemic none none 0) "u1"⟩] : State) ≠ [] := by
  exact ⟨rfl, by decide⟩

/-! ### Tracking points through the side-effect steps (for C4) -/

/-- In a well-formed state, the pid determines the point. -/
theorem WF.pid_inj {st : State} (hwf : WF st) {pt q : Point} (h1 : pt ∈ st)
    (h2 : q ∈ st) (he : pt.pid = q.pid) : pt = q :=
  List.inj_on_of_nodup_map hwf.1 h1 h2 he

/-- Any point survives an `add_edge` with its pid, confidence and
user_id intact (only an edges array is ever written). -/
theorem mem_add_edge_img {st : State} {pt : Point} (h : pt ∈ st) (a b r uid : String) :
    ∃ pt' ∈ add_edge st a b r uid, pt'.pid = pt.pid ∧
      pt'.payload.confidence = pt.payload.confidence ∧
      pt'.payload.user_id = pt.payload.user_id := by
  unfold add_edge
  cases hs : scrollFirst (memCond a uid) st with
  | none => exact ⟨pt, h, rfl, rfl, rfl⟩
  | some q =>
      dsimp only
      by_cases hdup : q.payload.edges.any (fun e => e.toId = b && e.relation = r) = true
      · rw [if_pos hdup]; exact ⟨pt, h, rfl, rfl, rfl⟩
      · rw [if_neg hdup]
        by_cases hq : pt.pid = q.pid
        · have himg := mem_setPayloadWith_self
            (f := fun p => { p with edges := q.payload.edges ++ [⟨b, r⟩] }) h
          rw [hq] at himg
          exact ⟨_, himg, hq.symm, rfl, rfl⟩
        · exact ⟨pt, mem_setPayloadWith_of_ne h hq, rfl, rfl, rfl⟩

/-- In a well-formed state, any point survives an `add_edge` with all
its edges still present (either untouched, or its own edge array is
appended to). -/
theorem mem_add_edge_edges {st : State} (hwf : WF st) {pt : Point} (h : pt ∈ st)
    (a b r uid : String) :
    ∃ pt' ∈ add_edge st a b r uid, pt'.pid = pt.pid ∧
      pt'.payload.user_id = pt.payload.user_id ∧
      ∀ e ∈ pt.payload.edges, e ∈ pt'.payload.edges := by
  unfold add_edge
  cases hs : scrollFirst (memCond a uid) st with
  | none => exact ⟨pt, h, rfl, rfl, fun e he => he⟩
  | some q =>
      dsimp only
      by_cases hdup : q.payload.edges.any (fun e => e.toId = b && e.relation = r) = true
      · rw [if_pos hdup]; exact ⟨pt, h, rfl, rfl, fun e he => he⟩
      · rw [if_neg hdup]
        by_cases hq : pt.pid = q.pid
        · have hpq : pt = q := hwf.pid_inj h (scrollFirst_eq_some hs).1 hq
          subst hpq
          refine ⟨⟨pt.pid, { pt.payload with edges := pt.payload.edges ++ [⟨b, r⟩] }⟩,
            mem_setPayloadWith_self h, rfl, rfl, ?_⟩
          intro e he
          exact List.mem_append_left _ he
        · exact ⟨pt, mem_setPayloadWith_of_ne h hq, rfl, rfl, fun e he => he⟩

/-- Any point survives an `update_sensitivity` with pid, confidence,
edges and user_id intact. -/
theorem mem_update_sensitivity_img {st : State} {pt : Point} (h : pt ∈ st)
    (mid lvl : String) (rsn : Option String) (uid : String) :
    ∃ pt' ∈ update_sensitivity st mid lvl rsn uid, pt'.pid = pt.pid ∧
      pt'.payload.confidence = pt.payload.confidence ∧
      pt'.payload.edges = pt.payload.edges ∧
      pt'.payload.user_id = pt.payload.user_id := by
  unfold update_sensitivity
  cases hs : scrollFirst (memCond mid uid) st with
  | none => exact ⟨pt, h, rfl, rfl, rfl, rfl⟩
  | some q =>
      by_cases hq : pt.pid = q.pid
      · have himg := mem_setPayloadWith_self
          (f := fun p => { p with sensitivity := some lvl, sensitivity_reason := rsn }) h
        rw [hq] at himg
        exact ⟨_, himg, hq.symm, rfl, rfl, rfl⟩
      · exact ⟨pt, mem_setPayloadWith_of_ne h hq, rfl, rfl, rfl, rfl⟩

/-- Any point survives a `followsStep` with pid, confidence and user_id
intact. -/
theorem followsStep_conf {st : State} {pt : Point} (h : pt ∈ st)
    (mem_id uid : String) (person project : Option String) (now : ℚ) (cf : Bool) :
    ∃ pt' ∈ followsStep st mem_id uid person project now cf, pt'.pid = pt.pid ∧
      pt'.payload.confidence = pt.payload.confidence ∧
      pt'.payload.user_id = pt.payload.user_id := by
  unfold followsStep
  by_cases hcf : cf = true
  · rw [if_pos hcf]; exact ⟨pt, h, rfl, rfl, rfl⟩
  · rw [if_neg hcf]
    cases find_recent_in_context st mem_id (now - 86400) person project uid with
    | none => exact ⟨pt, h, rfl, rfl, rfl⟩
    | some rid => exact mem_add_edge_img h mem_id rid "FOLLOWS" uid

/-- In a well-formed state, any point survives a `followsStep` with all
its edges still present. -/
theorem followsStep_edges {st : State} (hwf : WF st) {pt : Point} (h : pt ∈ st)
    (mem_id uid : String) (person project : Option String) (now : ℚ) (cf : Bool) :
    ∃ pt' ∈ followsStep st mem_id uid person project now cf, pt'.pid = pt.pid ∧
      pt'.payload.user_id = pt.payload.user_id ∧
      ∀ e ∈ pt.payload.edges, e ∈ pt'.payload.edges := by
  unfold followsStep
  by_cases hcf : cf = true
  · rw [if_pos hcf]; exact ⟨pt, h, rfl, rfl, fun e he => he⟩
  · rw [if_neg hcf]
    cases find_recent_in_context st mem_id (now - 86400) person project uid with
    | none => exact ⟨pt, h, rfl, rfl, fun e he => he⟩
    | some rid => exact mem_add_edge_edges hwf h mem_id rid "FOLLOWS" uid

/-- Any point survives a `classifyStep` with pid, confidence and
user_id intact. -/
theorem classifyStep_conf {st : State} {pt : Point} (h : pt ∈ st)
    (mem_id uid : String) (ak : Option String) (co : Option (String × String))
    (w : String) :
    ∃ pt' ∈ (classifyStep st mem_id uid ak co w).1, pt'.pid = pt.pid ∧
      pt'.payload.confidence = pt.payload.confidence ∧
      pt'.payload.user_id = pt.payload.user_id := by
  unfold classifyStep
  cases ak with
  | none => exact ⟨pt, h, rfl, rfl, rfl⟩
  | some k =>
      cases co with
      | none => exact ⟨pt, h, rfl, rfl, rfl⟩
      | some lr =>
          dsimp only
          by_cases hc : (lr.1 ≠ "safe" && lr.1 ≠ "unknown") = true
          · rw [if_pos hc]
            obtain ⟨pt', hp, h1, h2, h3, h4⟩ :=
              mem_update_sensitivity_img h mem_id lr.1 (some lr.2) uid
            exact ⟨pt', hp, h1, h2, h4⟩
          · rw [if_neg hc]; exact ⟨pt, h, rfl, rfl, rfl⟩

/-- Any point survives a `classifyStep` with its edges intact. -/
theorem classifyStep_edges {st : State} {pt : Point} (h : pt ∈ st)
    (mem_id uid : String) (ak : Option String) (co : Option (String × String))
    (w : String) :
    ∃ pt' ∈ (classifyStep st mem_id uid ak co w).1, pt'.pid = pt.pid ∧
      pt'.payload.user_id = pt.payload.user_id ∧
      ∀ e ∈ pt.payload.edges, e ∈ pt'.payload.edges := by
  unfold classifyStep
  cases ak with
  | none => exact ⟨pt, h, rfl, rfl, fun e he => he⟩
  | some k =>
      cases co with
      | none => exact ⟨pt, h, rfl, rfl, fun e he => he⟩
      | some lr =>
          dsimp only
          by_cases hc : (lr.1 ≠ "safe" && lr.1 ≠ "unknown") = true
          · rw [if_pos hc]
            obtain ⟨pt', hp, h1, h2, h3, h4⟩ :=
              mem_update_sensitivity_img h mem_id lr.1 (some lr.2) uid
            exact ⟨pt', hp, h1, h4, fun e he => h3 ▸ he⟩
          · rw [if_neg hc]; exact ⟨pt, h, rfl, rfl, fun e he => he⟩

/-! ### Claim C5: content validation -/

/-- The `^(behavioral|relational|epistemic|promissory|correction)$`
pattern of `api/app.py`. -/
def gatePatternMatch (s : String) : Bool :=
  s = "behavioral" || s = "relational" || s = "epistemic" ||
    s = "promissory" || s = "correction"

/-- The pydantic constraints of `CreateMemoryRequest` in `api/app.py`:
`content ≤ 100 000` chars, gate matching `GATE_PATTERN`, optional person
and project each at most 500 chars.  (No minimum length is imposed on
`content`.) -/
def createMemoryRequestValid (content gate : String)
    (person project : Option String) : Bool :=
  content.length ≤ 100000 && gatePatternMatch gate &&
    (match person with | none => true | some s => s.length ≤ 500) &&
    (match project with | none => true | some s => s.length ≤ 500)

theorem gatePattern_from_str {gs : String} (h : gatePatternMatch gs = true) :
    ∃ g, Gate.from_str gs = some g := by
  simp only [gatePatternMatch, Bool.or_eq_true, decide_eq_true_eq] at h
  rcases h with ((((h | h) | h) | h) | h) <;> subst h
  · exact ⟨.behavioral, by decide⟩
  · exact ⟨.relational, by decide⟩
  · exact ⟨.epistemic, by decide⟩
  · exact ⟨.promissory, by decide⟩
  · exact ⟨.correction, by decide⟩

/-- C5 (amended): `do_remember` itself performs no content validation —
the 100 000-character bound is enforced only by the HTTP API's request
model, and empty content is not rejected anywhere.  For every write that
passes the API request validation (which calls `do_remember` with its
default private visibility), the stored content equals the supplied
content and hence has length at most 100 000. -/
theorem remember_api_content_bound (st : State) (content gs : String)
    (person project : Option String) (uid : String) (now : ℚ) (rand4 : String)
    (s3 s1 : Option (List (String × ℚ))) (cf : Bool) (pw ak : Option String)
    (co : Option (String × String))
    (hreq : createMemoryRequestValid content gs person project = true)
    (hwf : WF st)
    (hfresh : ∀ q ∈ st, q.pid ≠ PKey.mem (memIdStr now rand4)) :
    content.length ≤ 100000 ∧
    ∀ g, Gate.from_str gs = some g →
      ∃ m, get_memory
          (do_remember st content gs person project uid "private" none now rand4
            s3 s1 cf pw ak co).2 (memIdStr now rand4) uid = some m ∧
        m.content = content ∧ m.content.length ≤ 100000 := by
  have hlen : content.length ≤ 100000 := by
    simp only [createMemoryRequestValid, Bool.and_eq_true, decide_eq_true_eq] at hreq
    exact hreq.1.1.1
  refine ⟨hlen, ?_⟩
  intro g hg
  obtain ⟨m, hm, hcontent, -, -, -⟩ :=
    remember_core hg
      (show ¬("private" = "team" ∧ truthy (none : Option String) = false) by decide)
      hwf hfresh s3 s1 cf pw ak co
  exact ⟨m, hm, hcontent, hcontent ▸ hlen⟩

/-- Witness for C5 (amended): concrete API-valid request stored with
its content intact. -/
theorem remember_api_content_bound_witness :
    (get_memory (do_remember [] "tabs over spaces" "behavioral" none none "u"
        "private" none 0 "ab" none none false none none none).2
      (memIdStr 0 "ab") "u").map Memory.content = some "tabs over spaces" := by
  obtain ⟨m, hm, hc, -⟩ :=
    (remember_api_content_bound [] "tabs over spaces" "behavioral" none none "u" 0 "ab"
        none none false none none none (by decide) WF_nil
        (by intro q hq; cases hq)).2 .behavioral (by decide)
  rw [hm]
  simp [hc]

/-- Counterexample for C5 as stated: empty content is not rejected —
`Remember` with `content = ""` returns a success message and persists
both records (no ValidationError anywhere on this path). -/
theorem remember_empty_content_cex :
    (do_remember [] "" "epistemic" none none "u" "private" none 0 "ab"
        none none false none none none).1
      = "Remembered [epistemic]:  (id: " ++ memIdStr 0 "ab" ++ ")" ∧
    (do_remember [] "" "epistemic" none none "u" "private" none 0 "ab"
        none none false none none none).2.length = 2 := by
  exact ⟨rfl, rfl⟩

/-! ### Claim C6: write/read round trip -/

/-- C6 (amended): for every successful `Remember` whose supplied person
and project are not the empty string (an empty-string person or project
is stored as "" and read back as absent), `GetMemory(id)` in the same
tenant returns a memory whose content, gate, person and project equal
the supplied values. -/
theorem remember_get_memory_roundtrip (st : State) (content gs : String) {g : Gate}
    (hg : Gate.from_str gs = some g)
    (person project : Option String) (uid vis : String) (tid : Option String)
    (hv : ¬(vis = "team" ∧ truthy tid = false))
    (now : ℚ) (rand4 : String)
    (s3 s1 : Option (List (String × ℚ))) (cf : Bool) (pw ak : Option String)
    (co : Option (String × String))
    (hwf : WF st)
    (hfresh : ∀ q ∈ st, q.pid ≠ PKey.mem (memIdStr now rand4))
    (hp : person ≠ some "") (hpr : project ≠ some "") :
    ∃ m, get_memory
        (do_remember st content gs person project uid vis tid now rand4 s3 s1 cf pw ak co).2
        (memIdStr now rand4) uid = some m ∧
      m.content = content ∧ m.gate = g ∧ m.person = person ∧ m.project = project := by
  obtain ⟨m, hm, hcontent, hgate, hperson, hproject⟩ :=
    remember_core hg hv hwf hfresh s3 s1 cf pw ak co
  refine ⟨m, hm, hcontent, hgate, ?_, ?_⟩
  · rw [hperson]
    cases person with
    | none => rfl
    | some s =>
        have hs : s ≠ "" := fun hc => hp (hc ▸ rfl)
        simp [orNone, Option.getD, hs]
  · rw [hproject]
    cases project with
    | none => rfl
    | some s =>
        have hs : s ≠ "" := fun hc => hpr (hc ▸ rfl)
        simp [orNone, Option.getD, hs]

/-- Witness for C6 (amended): a concrete write with person "Bob" round
trips content, gate, person and project. -/
theorem remember_get_memory_roundtrip_witness :
    (get_memory (do_remember [] "c1" "relational" (some "Bob") none "u" "private"
        none 0 "ab" none none false none none none).2 (memIdStr 0 "ab") "u").map
      (fun m => (m.content, m.gate, m.person, m.project))
      = some ("c1", Gate.relational, some "Bob", none) := by
  obtain ⟨m, hm, h1, h2, h3, h4⟩ :=
    remember_get_memory_roundtrip [] "c1" "relational"
      (show Gate.from_str "relational" = some Gate.relational by decide) (some "Bob") none
      "u" "private" none
      (show ¬("private" = "team" ∧ truthy (none : Option String) = false) by decide)
      0 "ab" none none false none none none WF_nil
      (by intro q hq; cases hq) (by decide) (by decide)
  rw [hm]
  simp [h1, h2, h3, h4]

/-! ### Claim C4: correction handling -/

/-- C4: for every `Remember` with gate `correction` whose limit-1 hybrid
search returns a hit `sid` distinct from the new id with score > 0.5
(the hit being a stored memory of the caller's scope, as the
user-filtered search guarantees), after the write the target's
confidence equals its prior confidence × 0.5 and the edge
`(new_id, sid, CONTRADICTS)` is present in the new memory's stored
edges. -/
theorem remember_correction (st : State) (content gs : String)
    (hg : Gate.from_str gs = some Gate.correction)
    (person project : Option String) (uid vis : String) (tid : Option String)
    (hv : ¬(vis = "team" ∧ truthy tid = false))
    (now : ℚ) (rand4 : String) (sid : String) (sc : ℚ)
    (hsid : sid ≠ memIdStr now rand4) (hsc : sc > (1/2 : ℚ))
    (s3 : Option (List (String × ℚ))) (cf : Bool) (pw ak : Option String)
    (co : Option (String × String)) (hwf : WF st)
    (hfresh : ∀ q ∈ st, q.pid ≠ PKey.mem (memIdStr now rand4))
    (pt : Point) (hpt : pt ∈ st) (hpid : pt.pid = PKey.mem sid)
    (huid : pt.payload.user_id = uid) :
    (∃ m, get_memory (do_remember st content gs person project uid vis tid now rand4
        s3 (some [(sid, sc)]) cf pw ak co).2 sid uid = some m ∧
      m.confidence = pt.payload.confidence * (1/2 : ℚ)) ∧
    (∃ ptN, ptN ∈ (do_remember st content gs person project uid vis tid now rand4
        s3 (some [(sid, sc)]) cf pw ak co).2 ∧
      ptN.pid = PKey.mem (memIdStr now rand4) ∧
      (⟨sid, "CONTRADICTS"⟩ : GEdge) ∈ ptN.payload.edges) := by
  rw [do_remember_ok hg hv st content person project uid now rand4 s3
    (some [(sid, sc)]) cf pw ak co]
  dsimp only
  obtain ⟨hid, hcontent, hgate, hperson, hproject⟩ :=
    applyOverrides_fields (rememberMemory content Gate.correction person project now rand4)
      (if vis ≠ "private" then some vis else none)
      (if vis = "team" then tid else none)
      (if vis = "team" then some uid else none)
  set mi := memIdStr now rand4 with hmi
  set m' := applyOverrides (rememberMemory content Gate.correction person project now rand4)
      (if vis ≠ "private" then some vis else none)
      (if vis = "team" then tid else none)
      (if vis = "team" then some uid else none) with hm'
  set st1 := insert_journal st (rememberEntry content Gate.correction person project now) uid
    with hst1
  have hwf1 : WF st1 := by
    rw [hst1]
    exact WF_insert_journal hwf _ _
  have hpt1 : pt ∈ st1 := by
    rw [hst1]
    unfold insert_journal
    exact mem_upsert_of_ne hpt (by rw [hpid]; simp [journalKey])
  have hfresh1 : ∀ q ∈ st1, q.pid ≠ PKey.mem mi := by
    intro q hq
    rw [hst1] at hq
    unfold insert_journal at hq
    rcases mem_upsert_elts hq with hq | hq
    · exact hfresh q hq
    · rw [hq]; simp [journalKey]
  have hmid : m'.id = mi := hid
  set newpt : Point := ⟨PKey.mem m'.id, memoryPayload m' uid⟩ with hnewpt
  have hst2 : insert_memory st1 (rememberMemory content Gate.correction person project now rand4)
      uid (if vis ≠ "private" then some vis else none)
      (if vis = "team" then tid else none)
      (if vis = "team" then some uid else none) = st1 ++ [newpt] := by
    unfold insert_memory
    dsimp only
    rw [← hm', ← hnewpt]
    exact upsert_fresh (fun q hq => by
      rw [hnewpt]; dsimp only; rw [hmid]; exact hfresh1 q hq)
  rw [hst2]
  have hwf2 : WF (st1 ++ [newpt]) := by
    rw [← hst2]
    exact WF_insert_memory hwf1 _ _ _ _ _
  have hnewmem : newpt ∈ st1 ++ [newpt] :=
    List.mem_append_right _ (List.mem_singleton.mpr rfl)
  have hpt2 : pt ∈ st1 ++ [newpt] := List.mem_append_left _ hpt1
  have hnewpid : newpt.pid = PKey.mem mi := by
    rw [hnewpt]; dsimp only; rw [hmid]
  have hnewuid : newpt.payload.user_id = uid := rfl
  have hptnew : pt.pid ≠ newpt.pid := by
    rw [hpid, hnewpid]
    intro hc
    exact hsid (by injection hc)
  have hscroll2 : scrollFirst (memCond mi uid) (st1 ++ [newpt]) = some newpt :=
    scrollFirst_mem_unique hwf2 hnewmem hnewpid hnewuid
  have hnedge : (⟨sid, "CONTRADICTS"⟩ : GEdge) ∉ newpt.payload.edges := by
    rw [hnewpt]; simp [memoryPayload]
  have hstA : add_edge (st1 ++ [newpt]) mi sid "CONTRADICTS" uid
      = setPayloadWith newpt.pid
          (fun p => { p with edges := newpt.payload.edges ++ [⟨sid, "CONTRADICTS"⟩] })
          (st1 ++ [newpt]) :=
    add_edge_append hscroll2 hnedge
  set ptN1 : Point := ⟨newpt.pid,
    { newpt.payload with edges := newpt.payload.edges ++ [⟨sid, "CONTRADICTS"⟩] }⟩
    with hptN1
  have hptN1mem : ptN1 ∈ add_edge (st1 ++ [newpt]) mi sid "CONTRADICTS" uid := by
    rw [hstA]
    exact mem_setPayloadWith_self hnewmem
  have hptA : pt ∈ add_edge (st1 ++ [newpt]) mi sid "CONTRADICTS" uid := by
    rw [hstA]
    exact mem_setPayloadWith_of_ne hpt2 hptnew
  have hwfA : WF (add_edge (st1 ++ [newpt]) mi sid "CONTRADICTS" uid) :=
    WF_add_edge hwf2 _ _ _ _
  have hscrollA : scrollFirst (memCond sid uid)
      (add_edge (st1 ++ [newpt]) mi sid "CONTRADICTS" uid) = some pt :=
    scrollFirst_mem_unique hwfA hptA hpid huid
  have hgetA : get_memory (add_edge (st1 ++ [newpt]) mi sid "CONTRADICTS" uid) sid uid
      = some (memory_from_payload pt.payload) := by
    unfold get_memory
    rw [hscrollA]
    rfl
  have hstB : update_confidence (add_edge (st1 ++ [newpt]) mi sid "CONTRADICTS" uid) sid
      ((memory_from_payload pt.payload).confidence * (1/2 : ℚ)) uid
      = setPayloadWith pt.pid
          (fun p => { p with
            confidence := (memory_from_payload pt.payload).confidence * (1/2 : ℚ) })
          (add_edge (st1 ++ [newpt]) mi sid "CONTRADICTS" uid) := by
    unfold update_confidence
    rw [hscrollA]
  set ptS : Point := ⟨pt.pid,
    { pt.payload with confidence := pt.payload.confidence * (1/2 : ℚ) }⟩ with hptS
  set stB := update_confidence (add_edge (st1 ++ [newpt]) mi sid "CONTRADICTS" uid) sid
      ((memory_from_payload pt.payload).confidence * (1/2 : ℚ)) uid with hstBdef
  have hptSmem : ptS ∈ stB := by
    rw [hstB]
    exact mem_setPayloadWith_self hptA
  have hptN1B : ptN1 ∈ stB := by
    rw [hstB]
    exact mem_setPayloadWith_of_ne hptN1mem (fun hc => hptnew hc.symm)
  have hwfB : WF stB := by
    rw [hstBdef]
    exact WF_update_confidence hwfA _ _ _
  have hcorr : correctionStep (st1 ++ [newpt]) mi uid (some [(sid, sc)]) = stB := by
    unfold correctionStep
    dsimp only
    rw [List.foldl_cons, List.foldl_nil]
    unfold corrApply
    rw [if_pos (show ((sid ≠ mi && sc > (1/2 : ℚ)) = true) by
      simp only [Bool.and_eq_true, decide_eq_true_eq]
      exact ⟨hsid, hsc⟩)]
    dsimp only
    rw [hgetA, hstBdef]
  -- the correction branch of the pipeline
  have hST3 : (if Gate.correction = Gate.correction then
      correctionStep (st1 ++ [newpt]) mi uid (some [(sid, sc)]) else st1 ++ [newpt]) = stB := by
    rw [if_pos rfl, hcorr]
  rw [hST3]
  -- step 4 (FOLLOWS chain)
  have h4 : ∃ st4, (if (truthy person || truthy project) = true then
        followsStep stB mi uid person project now cf else stB) = st4 ∧ WF st4 ∧
      (∃ ptS4 ∈ st4, ptS4.pid = ptS.pid ∧
        ptS4.payload.confidence = ptS.payload.confidence ∧
        ptS4.payload.user_id = ptS.payload.user_id) ∧
      (∃ ptN4 ∈ st4, ptN4.pid = ptN1.pid ∧
        ptN4.payload.user_id = ptN1.payload.user_id ∧
        ∀ e ∈ ptN1.payload.edges, e ∈ ptN4.payload.edges) := by
    by_cases hc : (truthy person || truthy project) = true
    · rw [if_pos hc]
      refine ⟨_, rfl, WF_followsStep hwfB _ _ _ _ _ _, ?_, ?_⟩
      · exact followsStep_conf hptSmem mi uid person project now cf
      · exact followsStep_edges hwfB hptN1B mi uid person project now cf
    · rw [if_neg hc]
      exact ⟨stB, rfl, hwfB, ⟨ptS, hptSmem, rfl, rfl, rfl⟩,
        ⟨ptN1, hptN1B, rfl, rfl, fun e he => he⟩⟩
  obtain ⟨st4, hst4, hwf4, ⟨ptS4, hptS4, hS4pid, hS4conf, hS4uid⟩,
    ⟨ptN4, hptN4, hN4pid, hN4uid, hN4edges⟩⟩ := h4
  rw [hst4]
  -- step 5 (classification)
  obtain ⟨ptS5, hptS5, hS5pid, hS5conf, hS5uid⟩ :=
    classifyStep_conf hptS4 mi uid ak co
      (piiAppend (contradictionWarning (st1 ++ [newpt]) content mi uid s3) pw)
  obtain ⟨ptN5, hptN5, hN5pid, hN5uid, hN5edges⟩ :=
    classifyStep_edges hptN4 mi uid ak co
      (piiAppend (contradictionWarning (st1 ++ [newpt]) content mi uid s3) pw)
  have hwf5 : WF (classifyStep st4 mi uid ak co
      (piiAppend (contradictionWarning (st1 ++ [newpt]) content mi uid s3) pw)).1 :=
    WF_classifyStep hwf4 _ _ _ _ _
  constructor
  · -- the target's confidence was halved
    have hS5pid' : ptS5.pid = PKey.mem sid := by
      rw [hS5pid, hS4pid]
      exact hpid
    have hS5uid' : ptS5.payload.user_id = uid := by
      rw [hS5uid, hS4uid]
      exact huid
    refine ⟨memory_from_payload ptS5.payload, ?_, ?_⟩
    · unfold get_memory
      rw [scrollFirst_mem_unique hwf5 hptS5 hS5pid' hS5uid']
      rfl
    · show ptS5.payload.confidence = pt.payload.confidence * (1/2 : ℚ)
      rw [hS5conf, hS4conf]
  · -- the CONTRADICTS edge is on the new memory
    refine ⟨ptN5, hptN5, ?_, ?_⟩
    · rw [hN5pid, hN4pid]
      exact hnewpid
    · refine hN5edges _ (hN4edges _ ?_)
      show (⟨sid, "CONTRADICTS"⟩ : GEdge) ∈ newpt.payload.edges ++ [⟨sid, "CONTRADICTS"⟩]
      exact List.mem_append_right _ (List.mem_singleton.mpr rfl)

/-- Witness for C4: on a concrete one-memory store (the target holds
confidence 9/10), a correction write halves the target's confidence to
9/20 and records the CONTRADICTS edge on the new memory. -/
theorem remember_correction_witness :
    ((get_memory (do_remember [mkMemPoint "mA" "u" 1 .epistemic "the API uses REST"]
        "actually gRPC" "correction" none none "u" "private" none 2 "ab" none
        (some [("mA", 9/10)]) false none none none).2 "mA" "u").map
      Memory.confidence) = some ((9/10 : ℚ) * (1/2 : ℚ)) := by
  obtain ⟨⟨m, hm, hconf⟩, -⟩ :=
    remember_correction [mkMemPoint "mA" "u" 1 .epistemic "the API uses REST"]
      "actually gRPC" "correction" (by decide) none none "u" "private" none
      (show ¬("private" = "team" ∧ truthy (none : Option String) = false) by decide)
      2 "ab" "mA" (9/10) (by decide) (by norm_num) none false none none none
      (by constructor
          · decide
          · decide)
      (by intro q hq
          rw [List.mem_singleton.mp hq]
          decide)
      (mkMemPoint "mA" "u" 1 .epistemic "the API uses REST")
      (List.mem_singleton.mpr rfl) rfl rfl
  rw [hm]
  show some m.confidence = _
  rw [hconf]
  rfl

/-- Counterexample for C6 as stated: a `Remember` supplied with
`person = ""` succeeds, but `GetMemory` returns the memory with person
absent (`None`), not the supplied empty string. -/
theorem remember_roundtrip_person_cex :
    (get_memory (do_remember [] "c1" "epistemic" (some "") none "u" "private"
        none 0 "ab" none none false none none none).2 (memIdStr 0 "ab") "u").map
      Memory.person = some none ∧
    some (none : Option String) ≠ some (some "") := by
  exact ⟨rfl, by decide⟩

/-! ### Claim C9: recall failure containment -/

/-- A string starting with the character F is not the sentinel. -/
theorem ne_sentinel_of_head {s : String} (h : s.data.head? = some 'F') :
    s ≠ noMemoriesMsg := by
  intro hc
  rw [hc] at h
  exact absurd h (by decide)

/-- The non-empty branch of `recallMessage` never collides with the
sentinel. -/
theorem recallMessage_sentinel_iff (tid : Option String) (items : List RItem) :
    recallMessage tid items = noMemoriesMsg ↔ items = [] := by
  unfold recallMessage
  by_cases h : items = []
  · rw [if_pos h]
    simp [h]
  · rw [if_neg h]
    constructor
    · intro hc
      exact absurd hc (ne_sentinel_of_head (by
        rw [String.data_append, String.data_append, String.data_append]
        rfl))
    · intro hc
      exact absurd hc h

/-- C9 (amended): with hybrid-search and text-fallback failures caught
(any oracle outcome, including `none` = raised) and no graph-stage
failure, `Recall` always returns a valid result string, and that string
is the canonical "no memories found" sentinel exactly when no result
line was collected.  (A graph-stage failure, by contrast, propagates:
see the counterexample.) -/
theorem recall_failure_containment (st : State) (uid : String) (tid : Option String)
    (now : ℚ) (hybrid txt : Option (List (String × ℚ))) :
    ∃ r, do_recall st uid tid now hybrid txt false = Except.ok r ∧
      (r.1 = noMemoriesMsg ↔ r.2.1 = []) := by
  unfold do_recall
  dsimp only
  by_cases h3 :
    (recallStage2 uid tid now txt (recallStage1 uid tid now hybrid st)).2.1.length < 3
  · rw [if_pos h3]
    rw [if_neg (by simp)]
    exact ⟨_, rfl, recallMessage_sentinel_iff tid _⟩
  · rw [if_neg h3]
    exact ⟨_, rfl, recallMessage_sentinel_iff tid _⟩

/-- Counterexample for C9 as stated: the graph-expansion stage is not
inside a try/except — when `find_related` raises during stage 3, the
whole `Recall` raises instead of returning a result string. -/
theorem recall_graph_failure_cex :
    do_recall [mkMemPoint "m1" "u" 3 .epistemic "hello"] "u" none 7
      (some [("m1", 1)]) none true = Except.error "find_related raised" := by
  rfl

/-! ### Claim C1: tenant isolation of retrieval -/

/-- The namespaces `_get_memory` can materialize from. -/
def nsOK (uid : String) (tid : Option String) (it : RItem) : Prop :=
  it.ns = uid ∨ (truthy tid = true ∧ it.ns = "team:" ++ tid.getD "")

theorem getMemoryNS_ns {st : State} {mid uid : String} {tid : Option String}
    {ns : String} {m : Memory} (h : getMemoryNS st mid uid tid = some (ns, m)) :
    ns = uid ∨ (truthy tid = true ∧ ns = "team:" ++ tid.getD "") := by
  unfold getMemoryNS at h
  cases hg : get_memory st mid uid with
  | some m' =>
      rw [hg] at h
      injection h with h'
      exact Or.inl (congrArg Prod.fst h').symm
  | none =>
      rw [hg] at h
      by_cases ht : truthy tid = true
      · rw [if_pos ht] at h
        cases hg2 : get_memory st mid ("team:" ++ tid.getD "") with
        | none => rw [hg2] at h; cases h
        | some m2 =>
            rw [hg2] at h
            injection h with h'
            exact Or.inr ⟨ht, (congrArg Prod.fst h').symm⟩
      · rw [if_neg ht] at h
        cases h

theorem recallVec_ns (uid : String) (tid : Option String) (now : ℚ) :
    ∀ (hits : List (String × ℚ)) (seen : List String) (items : List RItem) (st : State),
      (∀ it ∈ items, nsOK uid tid it) →
      ∀ it ∈ (recallVec uid tid now hits seen items st).2.1, nsOK uid tid it
  | [], _, _, _, hP, it, hit => hP it hit
  | (mid, score) :: rest, seen, items, st, hP, it, hit => by
      rw [recallVec] at hit
      by_cases hs : mid ∈ seen
      · rw [if_pos hs] at hit
        exact recallVec_ns uid tid now rest seen items st hP it hit
      · rw [if_neg hs] at hit
        cases hg : getMemoryNS st mid uid tid with
        | none =>
            rw [hg] at hit
            exact recallVec_ns uid tid now rest _ items st hP it hit
        | some pr =>
            obtain ⟨ns, m⟩ := pr
            rw [hg] at hit
            refine recallVec_ns uid tid now rest _ _ _ ?_ it hit
            intro x hx
            rcases List.mem_append.mp hx with hx | hx
            · exact hP x hx
            · rw [List.mem_singleton.mp hx]
              exact getMemoryNS_ns hg

theorem recallTxt_ns (uid : String) (tid : Option String) (now : ℚ) :
    ∀ (hits : List (String × ℚ)) (seen : List String) (items : List RItem) (st : State),
      (∀ it ∈ items, nsOK uid tid it) →
      ∀ it ∈ (recallTxt uid tid now hits seen items st).2.1, nsOK uid tid it
  | [], _, _, _, hP, it, hit => hP it hit
  | (mid, score) :: rest, seen, items, st, hP, it, hit => by
      rw [recallTxt] at hit
      by_cases hs : mid ∈ seen
      · rw [if_pos hs] at hit
        exact recallTxt_ns uid tid now rest seen items st hP it hit
      · rw [if_neg hs] at hit
        cases hg : getMemoryNS st mid uid tid with
        | none =>
            rw [hg] at hit
            exact recallTxt_ns uid tid now rest _ items st hP it hit
        | some pr =>
            obtain ⟨ns, m⟩ := pr
            rw [hg] at hit
            refine recallTxt_ns uid tid now rest _ _ _ ?_ it hit
            intro x hx
            rcases List.mem_append.mp hx with hx | hx
            · exact hP x hx
            · rw [List.mem_singleton.mp hx]
              exact getMemoryNS_ns hg

theorem graphInner_ns (uid : String) (tid : Option String) :
    ∀ (rels : List RelEntry) (seen : List String) (items : List RItem),
      (∀ it ∈ items, nsOK uid tid it) →
      ∀ it ∈ (graphInner uid rels seen items).2, nsOK uid tid it
  | [], _, _, hP, it, hit => hP it hit
  | rel :: rest, seen, items, hP, it, hit => by
      rw [graphInner] at hit
      by_cases hs : rel.id ∈ seen
      · rw [if_pos hs] at hit
        exact graphInner_ns uid tid rest seen items hP it hit
      · rw [if_neg hs] at hit
        refine graphInner_ns uid tid rest _ _ ?_ it hit
        intro x hx
        rcases List.mem_append.mp hx with hx | hx
        · exact hP x hx
        · rw [List.mem_singleton.mp hx]
          exact Or.inl rfl

theorem graphFold_ns (uid : String) (tid : Option String) (st : State) :
    ∀ (mids seen : List String) (items : List RItem),
      (∀ it ∈ items, nsOK uid tid it) →
      ∀ it ∈ (graphFold uid st mids seen items).2, nsOK uid tid it
  | [], _, _, hP, it, hit => hP it hit
  | mid :: rest, seen, items, hP, it, hit => by
      rw [graphFold] at hit
      exact graphFold_ns uid tid st rest _ _
        (graphInner_ns uid tid _ seen items hP) it hit

theorem recallStage1_ns (uid : String) (tid : Option String) (now : ℚ)
    (hybrid : Option (List (String × ℚ))) (st : State) :
    ∀ it ∈ (recallStage1 uid tid now hybrid st).2.1, nsOK uid tid it := by
  unfold recallStage1
  cases hybrid with
  | none => intro it hit; cases hit
  | some hits =>
      exact recallVec_ns uid tid now hits [] [] st (fun it hit => by cases hit)

theorem recallStage2_ns (uid : String) (tid : Option String) (now : ℚ)
    (txt : Option (List (String × ℚ))) (r1 : List String × List RItem × State)
    (hP : ∀ it ∈ r1.2.1, nsOK uid tid it) :
    ∀ it ∈ (recallStage2 uid tid now txt r1).2.1, nsOK uid tid it := by
  unfold recallStage2
  by_cases h : r1.2.1 = []
  · rw [if_pos h]
    cases txt with
    | none => exact hP
    | some hits => exact recallTxt_ns uid tid now hits r1.1 r1.2.1 r1.2.2 hP
  · rw [if_neg h]
    exact hP

/-- C1 (amended): every result line of `Recall` is materialized either
from the caller's own namespace (`user_id = ctx.user_id`, whatever the
stored visibility) or — when a team context is present — from the
synthetic team namespace `user_id = "team:<team_id>"`; graph neighbours
always come from the caller's own namespace.  In particular no other
user's or other team's record is ever returned, for every search-oracle
outcome.  (When the team context is absent the filter is user-only, so
the caller's own team-visibility memories are also returned — the
claim's private/team disjunction does not hold literally; see the
counterexample.) -/
theorem recall_tenant_scope (st : State) (uid : String) (tid : Option String)
    (now : ℚ) (hybrid txt : Option (List (String × ℚ))) (gf : Bool)
    (r : String × List RItem × State)
    (hok : do_recall st uid tid now hybrid txt gf = Except.ok r) :
    ∀ it ∈ r.2.1, it.ns = uid ∨ (truthy tid = true ∧ it.ns = "team:" ++ tid.getD "") := by
  have hP2 : ∀ it ∈ (recallStage2 uid tid now txt (recallStage1 uid tid now hybrid st)).2.1,
      nsOK uid tid it :=
    recallStage2_ns uid tid now txt _ (recallStage1_ns uid tid now hybrid st)
  unfold do_recall at hok
  dsimp only at hok
  by_cases h3 :
    (recallStage2 uid tid now txt (recallStage1 uid tid now hybrid st)).2.1.length < 3
  · rw [if_pos h3] at hok
    by_cases hgf : (gf && !((recallStage2 uid tid now txt
        (recallStage1 uid tid now hybrid st)).1.take 2).isEmpty) = true
    · rw [if_pos hgf] at hok
      cases hok
    · rw [if_neg hgf] at hok
      injection hok with hok
      rw [← hok]
      exact graphFold_ns uid tid _ _ _ _ hP2
  · rw [if_neg h3] at hok
    injection hok with hok
    rw [← hok]
    exact hP2

/-- Witness for C1 (amended): a concrete recall (no team context)
returns only lines materialized from the caller's own namespace. -/
theorem recall_tenant_scope_witness :
    (do_recall [mkMemPoint "m1" "u1" 3 .epistemic "hello"] "u1" none 7
        (some [("m1", 1)]) none false).map
      (fun r => r.2.1.all (fun it => it.ns == "u1")) = Except.ok true := by
  have hok : (do_recall [mkMemPoint "m1" "u1" 3 .epistemic "hello"] "u1" none 7
      (some [("m1", 1)]) none false).isOk = true := by rfl
  obtain ⟨r, hr⟩ : ∃ r, do_recall [mkMemPoint "m1" "u1" 3 .epistemic "hello"] "u1" none 7
      (some [("m1", 1)]) none false = Except.ok r := by
    cases h : do_recall [mkMemPoint "m1" "u1" 3 .epistemic "hello"] "u1" none 7
        (some [("m1", 1)]) none false with
    | ok r => exact ⟨r, rfl⟩
    | error e => rw [h] at hok; cases hok
  have hns := recall_tenant_scope [mkMemPoint "m1" "u1" 3 .epistemic "hello"] "u1" none 7
    (some [("m1", 1)]) none false r hr
  rw [hr]
  show Except.ok (r.2.1.all (fun it => it.ns == "u1")) = Except.ok true
  congr 1
  rw [List.all_eq_true]
  intro it hit
  rcases hns it hit with h | h
  · simp [h]
  · simp [truthy] at h

/-- A caller-owned team-visibility memory, as written by a team
`Remember` under user u1 in team T. -/
def teamVisPoint : Point :=
  ⟨PKey.mem "m1",
    memoryPayload
      { id := "m1", created := 3, gate := .epistemic, person := none, project := none,
        confidence := (9/10 : ℚ), last_accessed := 3, access_count := 1,
        decay_class := .moderate, content := "c", pinned := false, sensitivity := none,
        sensitivity_reason := none, visibility := .team, team_id := some "T",
        created_by := some "u1" } "u1"⟩

/-- The tenant-scope disjunction exactly as claim C1 words it, over the
stored owner user, visibility and team of a returned memory (this
definition follows the claim's words, for the refutation). -/
def claimC1Scope (ctxUser : String) (ctxTeam : Option String) (ownerUser : String)
    (vis : Visibility) (teamId : Option String) : Prop :=
  (ownerUser = ctxUser ∧ vis = .priv) ∨
    (ctxTeam ≠ none ∧ teamId = ctxTeam ∧ vis = .team)

/-- Projection of a result line to (namespace, visibility, team) for
concrete runs. -/
def itemVisNs : RItem → String × Visibility × Option String
  | .vec ns m _ => (ns, m.visibility, m.team_id)
  | .txt ns m _ => (ns, m.visibility, m.team_id)
  | .graph ns _ => (ns, .priv, none)

/-- Counterexample for C1 as stated: with no team context, the filter is
user-only, so the caller's own team-visibility memory is returned even
though it satisfies neither disjunct of the claim (`visibility` is not
private, and the caller has no team_id to match). -/
theorem recall_tenant_scope_cex :
    (do_recall [teamVisPoint] "u1" none 7 (some [("m1", 1)]) none false).map
        (fun r => r.2.1.map itemVisNs)
      = Except.ok [("u1", Visibility.team, some "T")] ∧
    build_memory_filter (some "u1") none teamVisPoint.payload = true ∧
    ¬ claimC1Scope "u1" none "u1" Visibility.team (some "T") := by
  refine ⟨rfl, rfl, ?_⟩
  intro h
  rcases h with ⟨-, hv⟩ | ⟨hn, -, -⟩
  · cases hv
  · exact hn rfl

/-! ### Claim C8: recall access touching -/

/-- The point as rewritten by `touch_memory` at clock `now`. -/
def touchedPoint (pt : Point) (now : ℚ) : Point :=
  ⟨pt.pid, { pt.payload with last_accessed := now,
                             access_count := pt.payload.access_count + 1 }⟩

/-- Once an id is in `seen`, the rest of the hybrid loop leaves any
point stored at that memory key untouched. -/
theorem recallVec_preserve (uid : String) (tid : Option String) (now : ℚ) {mid : String} :
    ∀ (hits : List (String × ℚ)) (seen : List String) (items : List RItem) (st : State),
      WF st → ∀ {pt' : Point}, pt' ∈ st → pt'.pid = PKey.mem mid → mid ∈ seen →
      pt' ∈ (recallVec uid tid now hits seen items st).2.2
  | [], _, _, _, _, _, hmem, _, _ => hmem
  | (h, s) :: rest, seen, items, st, hwf, pt', hmem, hpid, hseen => by
      rw [recallVec]
      by_cases hs : h ∈ seen
      · rw [if_pos hs]
        exact recallVec_preserve uid tid now rest seen items st hwf hmem hpid hseen
      · rw [if_neg hs]
        have hne : h ≠ mid := fun hc => hs (hc ▸ hseen)
        cases hg : getMemoryNS st h uid tid with
        | none =>
            exact recallVec_preserve uid tid now rest _ items st hwf hmem hpid
              (List.mem_append_left _ hseen)
        | some pr =>
            obtain ⟨ns, m⟩ := pr
            refine recallVec_preserve uid tid now rest _ _ _
              (WF_touch_memory hwf h uid now)
              (mem_touch_memory_of_ne hwf hmem
                (by rw [hpid]
                    intro hc
                    injection hc with hc
                    exact hne hc.symm) uid now)
              hpid (List.mem_append_left _ hseen)

/-- The hybrid loop never shrinks the result list. -/
theorem recallVec_len (uid : String) (tid : Option String) (now : ℚ) :
    ∀ (hits : List (String × ℚ)) (seen : List String) (items : List RItem) (st : State),
      items.length ≤ (recallVec uid tid now hits seen items st).2.1.length
  | [], _, _, _ => le_refl _
  | (h, s) :: rest, seen, items, st => by
      rw [recallVec]
      by_cases hs : h ∈ seen
      · rw [if_pos hs]
        exact recallVec_len uid tid now rest seen items st
      · rw [if_neg hs]
        cases getMemoryNS st h uid tid with
        | none => exact recallVec_len uid tid now rest _ items st
        | some pr =>
            obtain ⟨ns, m⟩ := pr
            calc items.length ≤ (items ++ [RItem.vec ns m s]).length := by
                  rw [List.length_append]; omega
              _ ≤ _ := recallVec_len uid tid now rest _ _ _

/-- Core of C8: a hybrid hit stored under the caller's own user id is
materialized, touched exactly once, and the loop produces at least one
result line. -/
theorem recallVec_touch (uid : String) (tid : Option String) (now : ℚ) {mid : String}
    {pt : Point} :
    ∀ (hits : List (String × ℚ)) (seen : List String) (items : List RItem) (st : State),
      WF st → pt ∈ st → pt.pid = PKey.mem mid → pt.payload.user_id = uid →
      (∃ sc, (mid, sc) ∈ hits) → mid ∉ seen →
      touchedPoint pt now ∈ (recallVec uid tid now hits seen items st).2.2 ∧
        (recallVec uid tid now hits seen items st).2.1 ≠ []
  | [], _, _, _, _, _, _, _, hin, _ => absurd hin.choose_spec (List.not_mem_nil _)
  | (h, s) :: rest, seen, items, st, hwf, hpt, hpid, huid, hin, hseen => by
      rw [recallVec]
      by_cases hs : h ∈ seen
      · rw [if_pos hs]
        have hne : h ≠ mid := fun hc => hseen (hc ▸ hs)
        refine recallVec_touch uid tid now rest seen items st hwf hpt hpid huid ?_ hseen
        obtain ⟨sc, hsc⟩ := hin
        rcases List.mem_cons.mp hsc with hc | hc
        · exact absurd (congrArg Prod.fst hc) (fun hx => hne hx.symm)
        · exact ⟨sc, hc⟩
      · rw [if_neg hs]
        by_cases hh : h = mid
        · subst hh
          have hscroll : scrollFirst (memCond h uid) st = some pt :=
            scrollFirst_mem_unique hwf hpt hpid huid
          have hget : getMemoryNS st h uid tid
              = some (uid, memory_from_payload pt.payload) := by
            unfold getMemoryNS get_memory
            rw [hscroll]
            rfl
          rw [hget]
          have htouch : touch_memory st h uid now
              = setPayloadWith pt.pid
                  (fun p => { p with last_accessed := now,
                                     access_count := pt.payload.access_count + 1 }) st := by
            unfold touch_memory
            rw [hscroll]
          constructor
          · refine recallVec_preserve uid tid now rest _ _ _ ?_ ?_ hpid
              (List.mem_append_right _ (List.mem_singleton.mpr rfl))
            · rw [htouch]
              exact WF_setPayloadWith hwf (fun p => ⟨rfl, rfl⟩)
            · rw [htouch]
              exact mem_setPayloadWith_self hpt
          · have hlen := recallVec_len uid tid now rest (seen ++ [h])
              (items ++ [RItem.vec uid (memory_from_payload pt.payload) s])
              (touch_memory st h uid now)
            intro hc
            rw [hc] at hlen
            simp at hlen
        · cases hg : getMemoryNS st h uid tid with
          | none =>
              refine recallVec_touch uid tid now rest _ items st hwf hpt hpid huid ?_ ?_
              · obtain ⟨sc, hsc⟩ := hin
                rcases List.mem_cons.mp hsc with hc | hc
                · exact absurd (congrArg Prod.fst hc) (fun hx => hh hx.symm)
                · exact ⟨sc, hc⟩
              · intro hc
                rcases List.mem_append.mp hc with hc | hc
                · exact hseen hc
                · exact hh (List.mem_singleton.mp hc).symm
          | some pr =>
              obtain ⟨ns, m⟩ := pr
              refine recallVec_touch uid tid now rest _ _ _
                (WF_touch_memory hwf h uid now)
                (mem_touch_memory_of_ne hwf hpt
                  (by rw [hpid]
                      intro hc
                      injection hc with hc
                      exact hh hc.symm) uid now)
                hpid huid ?_ ?_
              · obtain ⟨sc, hsc⟩ := hin
                rcases List.mem_cons.mp hsc with hc | hc
                · exact absurd (congrArg Prod.fst hc) (fun hx => hh hx.symm)
                · exact ⟨sc, hc⟩
              · intro hc
                rcases List.mem_append.mp hc with hc | hc
                · exact hseen hc
                · exact hh (List.mem_singleton.mp hc).symm

/-- Once an id is in `seen`, the rest of the text-fallback loop leaves
any point stored at that memory key untouched. -/
theorem recallTxt_preserve (uid : String) (tid : Option String) (now : ℚ) {mid : String} :
    ∀ (hits : List (String × ℚ)) (seen : List String) (items : List RItem) (st : State),
      WF st → ∀ {pt' : Point}, pt' ∈ st → pt'.pid = PKey.mem mid → mid ∈ seen →
      pt' ∈ (recallTxt uid tid now hits seen items st).2.2
  | [], _, _, _, _, _, hmem, _, _ => hmem
  | (h, s) :: rest, seen, items, st, hwf, pt', hmem, hpid, hseen => by
      rw [recallTxt]
      by_cases hs : h ∈ seen
      · rw [if_pos hs]
        exact recallTxt_preserve uid tid now rest seen items st hwf hmem hpid hseen
      · rw [if_neg hs]
        have hne : h ≠ mid := fun hc => hs (hc ▸ hseen)
        cases hg : getMemoryNS st h uid tid with
        | none =>
            exact recallTxt_preserve uid tid now rest _ items st hwf hmem hpid
              (List.mem_append_left _ hseen)
        | some pr =>
            obtain ⟨ns, m⟩ := pr
            refine recallTxt_preserve uid tid now rest _ _ _
              (WF_touch_memory hwf h uid now)
              (mem_touch_memory_of_ne hwf hmem
                (by rw [hpid]
                    intro hc
                    injection hc with hc
                    exact hne hc.symm) uid now)
              hpid (List.mem_append_left _ hseen)

/-- The text-fallback loop never shrinks the result list. -/
theorem recallTxt_len (uid : String) (tid : Option String) (now : ℚ) :
    ∀ (hits : List (String × ℚ)) (seen : List String) (items : List RItem) (st : State),
      items.length ≤ (recallTxt uid tid now hits seen items st).2.1.length
  | [], _, _, _ => le_refl _
  | (h, s) :: rest, seen, items, st => by
      rw [recallTxt]
      by_cases hs : h ∈ seen
      · rw [if_pos hs]
        exact recallTxt_len uid tid now rest seen items st
      · rw [if_neg hs]
        cases getMemoryNS st h uid tid with
        | none => exact recallTxt_len uid tid now rest _ items st
        | some pr =>
            obtain ⟨ns, m⟩ := pr
            calc items.length ≤ (items ++ [RItem.txt ns m s]).length := by
                  rw [List.length_append]; omega
              _ ≤ _ := recallTxt_len uid tid now rest _ _ _

/-- Text-fallback analogue of the touching core: a text hit stored
under the caller's own user id is materialized, touched, and the loop
produces at least one result line. -/
theorem recallTxt_touch (uid : String) (tid : Option String) (now : ℚ) {mid : String}
    {pt : Point} :
    ∀ (hits : List (String × ℚ)) (seen : List String) (items : List RItem) (st : State),
      WF st → pt ∈ st → pt.pid = PKey.mem mid → pt.payload.user_id = uid →
      (∃ sc, (mid, sc) ∈ hits) → mid ∉ seen →
      touchedPoint pt now ∈ (recallTxt uid tid now hits seen items st).2.2 ∧
        (recallTxt uid tid now hits seen items st).2.1 ≠ []
  | [], _, _, _, _, _, _, _, hin, _ => absurd hin.choose_spec (List.not_mem_nil _)
  | (h, s) :: rest, seen, items, st, hwf, hpt, hpid, huid, hin, hseen => by
      rw [recallTxt]
      by_cases hs : h ∈ seen
      · rw [if_pos hs]
        have hne : h ≠ mid := fun hc => hseen (hc ▸ hs)
        refine recallTxt_touch uid tid now rest seen items st hwf hpt hpid huid ?_ hseen
        obtain ⟨sc, hsc⟩ := hin
        rcases List.mem_cons.mp hsc with hc | hc
        · exact absurd (congrArg Prod.fst hc) (fun hx => hne hx.symm)
        · exact ⟨sc, hc⟩
      · rw [if_neg hs]
        by_cases hh : h = mid
        · subst hh
          have hscroll : scrollFirst (memCond h uid) st = some pt :=
            scrollFirst_mem_unique hwf hpt hpid huid
          have hget : getMemoryNS st h uid tid
              = some (uid, memory_from_payload pt.payload) := by
            unfold getMemoryNS get_memory
            rw [hscroll]
            rfl
          rw [hget]
          have htouch : touch_memory st h uid now
              = setPayloadWith pt.pid
                  (fun p => { p with last_accessed := now,
                                     access_count := pt.payload.access_count + 1 }) st := by
            unfold touch_memory
            rw [hscroll]
          constructor
          · refine recallTxt_preserve uid tid now rest _ _ _ ?_ ?_ hpid
              (List.mem_append_right _ (List.mem_singleton.mpr rfl))
            · rw [htouch]
              exact WF_setPayloadWith hwf (fun p => ⟨rfl, rfl⟩)
            · rw [htouch]
              exact mem_setPayloadWith_self hpt
          · have hlen := recallTxt_len uid tid now rest (seen ++ [h])
              (items ++ [RItem.txt uid (memory_from_payload pt.payload) s])
              (touch_memory st h uid now)
            intro hc
            rw [hc] at hlen
            simp at hlen
        · cases hg : getMemoryNS st h uid tid with
          | none =>
              refine recallTxt_touch uid tid now rest _ items st hwf hpt hpid huid ?_ ?_
              · obtain ⟨sc, hsc⟩ := hin
                rcases List.mem_cons.mp hsc with hc | hc
                · exact absurd (congrArg Prod.fst hc) (fun hx => hh hx.symm)
                · exact ⟨sc, hc⟩
              · intro hc
                rcases List.mem_append.mp hc with hc | hc
                · exact hseen hc
                · exact hh (List.mem_singleton.mp hc).symm
          | some pr =>
              obtain ⟨ns, m⟩ := pr
              refine recallTxt_touch uid tid now rest _ _ _
                (WF_touch_memory hwf h uid now)
                (mem_touch_memory_of_ne hwf hpt
                  (by rw [hpid]
                      intro hc
                      injection hc with hc
                      exact hh hc.symm) uid now)
                hpid huid ?_ ?_
              · obtain ⟨sc, hsc⟩ := hin
                rcases List.mem_cons.mp hsc with hc | hc
                · exact absurd (congrArg Prod.fst hc) (fun hx => hh hx.symm)
                · exact ⟨sc, hc⟩
              · intro hc
                rcases List.mem_append.mp hc with hc | hc
                · exact hseen hc
                · exact hh (List.mem_singleton.mp hc).symm

/-- If the hybrid loop ends with no result lines, it never materialized
anything: the state is unchanged, and an id stored under the caller's
own user id cannot have entered `seen` (its materialization would have
succeeded and appended a line). -/
theorem recallVec_empty (uid : String) (tid : Option String) (now : ℚ) {mid : String}
    {pt : Point} :
    ∀ (hits : List (String × ℚ)) (seen : List String) (items : List RItem) (st : State),
      WF st → pt ∈ st → pt.pid = PKey.mem mid → pt.payload.user_id = uid →
      mid ∉ seen →
      (recallVec uid tid now hits seen items st).2.1 = [] →
      (recallVec uid tid now hits seen items st).2.2 = st ∧
        mid ∉ (recallVec uid tid now hits seen items st).1
  | [], _, _, _, _, _, _, _, hseen, _ => ⟨rfl, hseen⟩
  | (h, s) :: rest, seen, items, st, hwf, hpt, hpid, huid, hseen, hemp => by
      rw [recallVec] at hemp ⊢
      by_cases hs : h ∈ seen
      · rw [if_pos hs] at hemp ⊢
        exact recallVec_empty uid tid now rest seen items st hwf hpt hpid huid hseen hemp
      · rw [if_neg hs] at hemp ⊢
        by_cases hh : h = mid
        · subst hh
          have hscroll : scrollFirst (memCond h uid) st = some pt :=
            scrollFirst_mem_unique hwf hpt hpid huid
          have hget : getMemoryNS st h uid tid
              = some (uid, memory_from_payload pt.payload) := by
            unfold getMemoryNS get_memory
            rw [hscroll]
            rfl
          rw [hget] at hemp
          have hemp' : (recallVec uid tid now rest (seen ++ [h])
              (items ++ [RItem.vec uid (memory_from_payload pt.payload) s])
              (touch_memory st h uid now)).2.1 = [] := hemp
          have hlen := recallVec_len uid tid now rest (seen ++ [h])
            (items ++ [RItem.vec uid (memory_from_payload pt.payload) s])
            (touch_memory st h uid now)
          rw [hemp'] at hlen
          simp at hlen
        · cases hg : getMemoryNS st h uid tid with
          | none =>
              rw [hg] at hemp
              have hemp' : (recallVec uid tid now rest (seen ++ [h]) items st).2.1
                  = [] := hemp
              have hns : mid ∉ seen ++ [h] := by
                intro hc
                rcases List.mem_append.mp hc with hc | hc
                · exact hseen hc
                · exact hh (List.mem_singleton.mp hc).symm
              exact recallVec_empty uid tid now rest _ items st hwf hpt hpid huid
                hns hemp'
          | some pr =>
              obtain ⟨ns, m⟩ := pr
              rw [hg] at hemp
              have hemp' : (recallVec uid tid now rest (seen ++ [h])
                  (items ++ [RItem.vec ns m s]) (touch_memory st h uid now)).2.1
                  = [] := hemp
              have hlen := recallVec_len uid tid now rest (seen ++ [h])
                (items ++ [RItem.vec ns m s]) (touch_memory st h uid now)
              rw [hemp'] at hlen
              simp at hlen

/-- C8 (amended): for every hybrid or text-fallback hit whose stored
record lies in the caller's own namespace, after `Recall` that record's
`last_accessed` equals the recall clock and its `access_count` has been
incremented by one.  A text hit counts when the fallback stage actually
ran, i.e. the hybrid stage produced no result lines.  (Hits
materialized from the synthetic team namespace are touched under the
caller's user id, which matches nothing, so they are not touched — see
the counterexample.) -/
theorem recall_touches (st : State) (uid : String) (tid : Option String) (now : ℚ)
    (hybrid txt : Option (List (String × ℚ))) (mid : String)
    (pt : Point) (hwf : WF st) (hpt : pt ∈ st) (hpid : pt.pid = PKey.mem mid)
    (huid : pt.payload.user_id = uid)
    (hhit : (∃ hits sc, hybrid = some hits ∧ (mid, sc) ∈ hits) ∨
      ((recallStage1 uid tid now hybrid st).2.1 = [] ∧
        ∃ thits sc, txt = some thits ∧ (mid, sc) ∈ thits))
    (r : String × List RItem × State)
    (hok : do_recall st uid tid now hybrid txt false = Except.ok r) :
    touchedPoint pt now ∈ r.2.2 := by
  have hstate : touchedPoint pt now
      ∈ (recallStage2 uid tid now txt (recallStage1 uid tid now hybrid st)).2.2 := by
    rcases hhit with ⟨hits, sc, hhyb, hmh⟩ | ⟨hemp, thits, sc, htxt, hmh⟩
    · subst hhyb
      obtain ⟨ht, hne⟩ := recallVec_touch uid tid now hits [] [] st hwf hpt hpid huid
        ⟨sc, hmh⟩ (List.not_mem_nil mid)
      show touchedPoint pt now
          ∈ (recallStage2 uid tid now txt (recallVec uid tid now hits [] [] st)).2.2
      unfold recallStage2
      rw [if_neg hne]
      exact ht
    · subst htxt
      cases hybrid with
      | none =>
          exact (recallTxt_touch uid tid now thits [] [] st hwf hpt hpid huid
            ⟨sc, hmh⟩ (List.not_mem_nil mid)).1
      | some hits =>
          have h1 : recallStage1 uid tid now (some hits) st
              = recallVec uid tid now hits [] [] st := rfl
          rw [h1] at hemp ⊢
          obtain ⟨hst, hseen⟩ := recallVec_empty uid tid now hits [] [] st hwf hpt hpid
            huid (List.not_mem_nil mid) hemp
          have h2 : recallStage2 uid tid now (some thits)
                (recallVec uid tid now hits [] [] st)
              = recallTxt uid tid now thits (recallVec uid tid now hits [] [] st).1
                  (recallVec uid tid now hits [] [] st).2.1
                  (recallVec uid tid now hits [] [] st).2.2 := by
            unfold recallStage2
            rw [if_pos hemp]
          rw [h2, hemp, hst]
          exact (recallTxt_touch uid tid now thits
            (recallVec uid tid now hits [] [] st).1 [] st hwf hpt hpid huid
            ⟨sc, hmh⟩ hseen).1
  unfold do_recall at hok
  dsimp only at hok
  by_cases h3 : (recallStage2 uid tid now txt
      (recallStage1 uid tid now hybrid st)).2.1.length < 3
  · rw [if_pos h3, if_neg (by simp)] at hok
    injection hok with hok
    rw [← hok]
    exact hstate
  · rw [if_neg h3] at hok
    injection hok with hok
    rw [← hok]
    exact hstate

/-- The state point produced by the concrete C8 witness run. -/
def touchedWitnessPt : Point :=
  touchedPoint (mkMemPoint "m1" "u" 3 .epistemic "hello") 7

/-- Witness for C8 (amended): a concrete recall of a caller-owned
memory leaves its touched image (last_accessed 7, access_count 2) in the
resulting state — once through a hybrid hit, and once through a
text-fallback hit after the hybrid search raised. -/
theorem recall_touches_witness :
    (do_recall [mkMemPoint "m1" "u" 3 .epistemic "hello"] "u" none 7
        (some [("m1", 1)]) none false).map
      (fun r => r.2.2.any (fun q => q == touchedWitnessPt)) = Except.ok true ∧
    (do_recall [mkMemPoint "m1" "u" 3 .epistemic "hello"] "u" none 7
        none (some [("m1", 1)]) false).map
      (fun r => r.2.2.any (fun q => q == touchedWitnessPt)) = Except.ok true := by
  constructor
  · have hok : (do_recall [mkMemPoint "m1" "u" 3 .epistemic "hello"] "u" none 7
        (some [("m1", 1)]) none false).isOk = true := by rfl
    obtain ⟨r, hr⟩ : ∃ r, do_recall [mkMemPoint "m1" "u" 3 .epistemic "hello"] "u" none 7
        (some [("m1", 1)]) none false = Except.ok r := by
      cases h : do_recall [mkMemPoint "m1" "u" 3 .epistemic "hello"] "u" none 7
          (some [("m1", 1)]) none false with
      | ok r => exact ⟨r, rfl⟩
      | error e => rw [h] at hok; cases hok
    have hmem := recall_touches [mkMemPoint "m1" "u" 3 .epistemic "hello"] "u" none 7
      (some [("m1", 1)]) none "m1"
      (mkMemPoint "m1" "u" 3 .epistemic "hello")
      (by constructor
          · decide
          · decide)
      (List.mem_singleton.mpr rfl) rfl rfl
      (Or.inl ⟨[("m1", 1)], 1, rfl, List.mem_singleton.mpr rfl⟩) r hr
    rw [hr]
    show Except.ok (r.2.2.any (fun q => q == touchedWitnessPt)) = Except.ok true
    congr 1
    rw [List.any_eq_true]
    exact ⟨touchedWitnessPt, hmem, by
      simp only [beq_self_eq_true]⟩
  · have hok : (do_recall [mkMemPoint "m1" "u" 3 .epistemic "hello"] "u" none 7
        none (some [("m1", 1)]) false).isOk = true := by rfl
    obtain ⟨r, hr⟩ : ∃ r, do_recall [mkMemPoint "m1" "u" 3 .epistemic "hello"] "u" none 7
        none (some [("m1", 1)]) false = Except.ok r := by
      cases h : do_recall [mkMemPoint "m1" "u" 3 .epistemic "hello"] "u" none 7
          none (some [("m1", 1)]) false with
      | ok r => exact ⟨r, rfl⟩
      | error e => rw [h] at hok; cases hok
    have hmem := recall_touches [mkMemPoint "m1" "u" 3 .epistemic "hello"] "u" none 7
      none (some [("m1", 1)]) "m1"
      (mkMemPoint "m1" "u" 3 .epistemic "hello")
      (by constructor
          · decide
          · decide)
      (List.mem_singleton.mpr rfl) rfl rfl
      (Or.inr ⟨rfl, [("m1", 1)], 1, rfl, List.mem_singleton.mpr rfl⟩) r hr
    rw [hr]
    show Except.ok (r.2.2.any (fun q => q == touchedWitnessPt)) = Except.ok true
    congr 1
    rw [List.any_eq_true]
    exact ⟨touchedWitnessPt, hmem, by
      simp only [beq_self_eq_true]⟩

/-- A memory stored in the synthetic team namespace (`user_id =
"team:T"`), as the team-scope materialization path of `_get_memory`
expects. -/
def teamNsPoint : Point :=
  ⟨PKey.mem "m1",
    memoryPayload
      { id := "m1", created := 3, gate := .epistemic, person := none, project := none,
        confidence := (9/10 : ℚ), last_accessed := 3, access_count := 1,
        decay_class := .moderate, content := "c", pinned := false, sensitivity := none,
        sensitivity_reason := none, visibility := .team, team_id := some "T",
        created_by := some "u2" } "team:T"⟩

/-- Counterexample for C8 as stated: a hit materialized from the team
namespace is returned as a result line, but `touch_memory` is called
with the caller's user id and matches nothing — the stored state is
unchanged, so the hit's `access_count` is not incremented and its
`last_accessed` does not move. -/
theorem recall_touches_team_cex :
    (do_recall [teamNsPoint] "u1" (some "T") 7 (some [("m1", 1)]) none false).map
      (fun r => (r.2.1.length, r.2.2)) = Except.ok (1, [teamNsPoint]) := by
  rfl

end CMK
